import Mathlib

/-!
# Verification of the JavaScript-Security-Patterns untrusted-text defense engine

Shallow embedding, in Lean 4, of the security-relevant functions of the
repository (examples/02-xss-prevention/test.js and
examples/03-eval-alternatives/secure.js):

* `sanitizeHTML` / `escapeHTML` — the multi-pass content sanitizer,
* `secureEval` / `safeCalculator` — the constrained expression evaluator,
* `getNestedProperty` / `safeJSONPath` — safe nested-property resolution,
* `removePrototypePollution` / `safeJSONParse` — structured-data cleaning,
* `validateURL` — URL scheme/host validation.

Strings are modelled as `List Char`.  The JavaScript regular-expression
rewrite passes are modelled as deterministic left-to-right scanners that
reproduce the semantics of the concrete patterns appearing in the source
(all of which are backtracking-free).  JavaScript numbers are modelled as
exact rational pairs plus IEEE special values (`NaN`, `±Infinity`); rounding
of doubles is not modelled (no theorem below depends on rounding).
-/

namespace JsSec

/-! ## Character helpers -/

/-- The double-quote character. -/
def quoteC : Char := Char.ofNat 34

/-- The single-quote character. -/
def aposC : Char := Char.ofNat 39

/-- The backtick character. -/
def backtickC : Char := Char.ofNat 96

/-- ASCII lower-casing, as used by JavaScript case-insensitive regex flags
and `String.prototype.toLowerCase` on ASCII input. -/
def lowerC (c : Char) : Char :=
  if 'A' ≤ c ∧ c ≤ 'Z' then Char.ofNat (c.toNat + 32) else c

/-- Case-insensitive character comparison (ASCII). -/
def ciEq (a b : Char) : Bool := lowerC a = lowerC b

/-- JavaScript `\s` on the ASCII range: space, tab, LF, VT, FF, CR. -/
def isSpaceJS (c : Char) : Bool :=
  c = ' ' ∨ c = '\t' ∨ c = '\n' ∨ c = Char.ofNat 11 ∨ c = Char.ofNat 12 ∨ c = '\r'

/-- JavaScript `\w`: `[A-Za-z0-9_]`. -/
def isWordChar (c : Char) : Bool :=
  ('a' ≤ c ∧ c ≤ 'z') ∨ ('A' ≤ c ∧ c ≤ 'Z') ∨ ('0' ≤ c ∧ c ≤ '9') ∨ c = '_'

/-- `[0-9]`. -/
def isDigitC (c : Char) : Bool := '0' ≤ c ∧ c ≤ '9'

/-- `[a-zA-Z]`. -/
def isAlphaC (c : Char) : Bool := ('a' ≤ c ∧ c ≤ 'z') ∨ ('A' ≤ c ∧ c ≤ 'Z')

/-- Does the head of the list satisfy `p`? -/
def headSat (p : Char → Bool) : List Char → Bool
  | c :: _ => p c
  | [] => false

/-- Case-insensitive prefix test: if `w` (compared ASCII-case-insensitively)
is a prefix of `l`, return the remainder of `l`. -/
def ciDropWord : List Char → List Char → Option (List Char)
  | [], l => some l
  | _ :: _, [] => none
  | w :: ws, c :: cs => if ciEq w c then ciDropWord ws cs else none

/-! ## Generic pattern machinery

Each regular expression used by the source is backtracking-free, so it is
modelled as a deterministic character-consuming automaton: at each input
character a pattern state either fails, accepts (the consumed character being
the last one of the match), or continues in a new state. -/

/-- Result of feeding one character to a pattern state. -/
inductive StepRes (σ : Type) where
  | fail : StepRes σ
  | accept : StepRes σ
  | cont : σ → StepRes σ

/-- A deterministic, backtracking-free pattern. -/
structure PatFam (σ : Type) where
  step : σ → Char → StepRes σ

/-- Run a pattern from state `st` at the head of `l`; on success, return the
input remaining after the match. -/
def matchFrom {σ : Type} (P : PatFam σ) (st : σ) : List Char → Option (List Char)
  | [] => none
  | c :: cs =>
    match P.step st c with
    | .fail => none
    | .accept => some cs
    | .cont st' => matchFrom P st' cs

/-- Does the pattern match starting at any position of `l`?  Fuel-driven so
that the kernel can evaluate it; `fuel = l.length` always suffices. -/
def hasMGo {σ : Type} (P : PatFam σ) (st0 : σ) : Nat → List Char → Bool
  | 0, _ => false
  | _ + 1, [] => false
  | fuel + 1, c :: cs => (matchFrom P st0 (c :: cs)).isSome || hasMGo P st0 fuel cs

/-- Does the pattern match starting at any position of `l`? -/
def hasM {σ : Type} (P : PatFam σ) (st0 : σ) (l : List Char) : Bool :=
  hasMGo P st0 l.length l

/-- One generic rewriting pass, the model of JavaScript
`String.prototype.replace` with a `g`-flagged backtracking-free regex:
scan left to right; at each position either rewrite a match (emitting the
replacement returned by `tm` and resuming after the match) or copy one
character.  `tm` reports a match at the current position as
`(replacement, rest-after-match)`.  Fuel-driven; since every pattern of the
source consumes at least one character, `fuel = l.length` suffices. -/
def rewriteGo (tm : List Char → Option (List Char × List Char)) :
    Nat → List Char → List Char
  | 0, l => l
  | _ + 1, [] => []
  | fuel + 1, c :: cs =>
    match tm (c :: cs) with
    | some (rep, rest) => rep ++ rewriteGo tm fuel rest
    | none => c :: rewriteGo tm fuel cs

/-- Top-level entry of a rewriting pass. -/
def rewriteTop (tm : List Char → Option (List Char × List Char)) (l : List Char) :
    List Char :=
  rewriteGo tm l.length l

/-- `tm` for a `PatFam` pattern with a constant replacement. -/
def tmOf {σ : Type} (P : PatFam σ) (st0 : σ) (rep : List Char)
    (l : List Char) : Option (List Char × List Char) :=
  (matchFrom P st0 l).map (fun rest => (rep, rest))

/-- Simulate pattern state `st` on the explicit character list `r`: `true`
iff the pattern fails strictly inside `r` (so that, whatever follows `r`,
no match can start at `r`'s head through state `st`). -/
def failsOn {σ : Type} (P : PatFam σ) (st : σ) : List Char → Bool
  | [] => false
  | c :: cs =>
    match P.step st c with
    | .fail => true
    | .accept => false
    | .cont st' => failsOn P st' cs

/-! ## Concrete patterns of the sanitizer

`sanitizeHTML` (examples/02-xss-prevention/test.js, lines 621-729) applies a
fixed sequence of `String.replace` calls.  Each regex is modelled below. -/

/-- State space for `/word\s*:/i`-shaped scheme patterns
(`javascript\s*:`, `data\s*:`, `vbscript\s*:`): first the remaining
letters of the word, then the `\s*` before the colon. -/
inductive SchemeSt where
  | word : List Char → SchemeSt
  | colonSp : SchemeSt
deriving DecidableEq

/-- The pattern `/word\s*:/i`, `word` given by the initial state. -/
def schemePat : PatFam SchemeSt where
  step st c :=
    match st with
    | .word [] => .fail
    | .word (x :: xs) =>
      if ciEq x c then (if xs.isEmpty then .cont .colonSp else .cont (.word xs))
      else .fail
    | .colonSp =>
      if c = ':' then .accept else if isSpaceJS c then .cont .colonSp else .fail

/-- The replacement text of the scheme-neutralization passes. -/
def blockedColon : List Char := "blocked:".toList

/-- The replacement text of the `expression()` / `@import` passes. -/
def blockedWord : List Char := "blocked".toList

/-- `html.replace(/word\s*:/gi, "blocked:")`. -/
def replaceScheme (w : List Char) (l : List Char) : List Char :=
  rewriteTop (tmOf schemePat (.word w) blockedColon) l

/-- State space for case-insensitive literal words. -/
inductive LitSt where
  | word : List Char → LitSt
deriving DecidableEq

/-- Case-insensitive literal-word pattern. -/
def litPat : PatFam LitSt where
  step st c :=
    match st with
    | .word [] => .fail
    | .word (x :: xs) =>
      if ciEq x c then (if xs.isEmpty then .accept else .cont (.word xs)) else .fail

/-- Case-insensitive substring containment (the model of
`String.prototype.includes` for the case-sensitive uses we instantiate it
with all-lowercase text, and of `/word/i.test` in general). -/
def containsCI (w l : List Char) : Bool := hasM litPat (.word w) l

/-- State space for `/expression\s*\([^)]*\)/i`. -/
inductive ExprCssSt where
  | word : List Char → ExprCssSt
  | sp : ExprCssSt
  | inside : ExprCssSt
deriving DecidableEq

/-- The pattern `/expression\s*\([^)]*\)/i`. -/
def exprCssPat : PatFam ExprCssSt where
  step st c :=
    match st with
    | .word [] => .fail
    | .word (x :: xs) =>
      if ciEq x c then (if xs.isEmpty then .cont .sp else .cont (.word xs)) else .fail
    | .sp =>
      if c = '(' then .cont .inside else if isSpaceJS c then .cont .sp else .fail
    | .inside => if c = ')' then .accept else .cont .inside

/-- `html.replace(/expression\s*\([^)]*\)/gi, "blocked")`. -/
def exprCssTm : List Char → Option (List Char × List Char) :=
  tmOf exprCssPat (.word "expression".toList) blockedWord

/-- `html.replace(/@import/gi, "blocked")`. -/
def importAtTm : List Char → Option (List Char × List Char) :=
  tmOf litPat (.word "@import".toList) blockedWord

/-! ### Tag-oriented passes -/

/-- Split a list at the first occurrence of `stop`, returning the part before
it and the part after it. -/
def breakAtChar (stop : Char) : List Char → Option (List Char × List Char)
  | [] => none
  | c :: cs =>
    if c = stop then some ([], cs)
    else (breakAtChar stop cs).map (fun p => (c :: p.1, p.2))

/-- Rest of the input after the first case-insensitive occurrence of `w`
(the search crosses newlines: model of lazy `.*?` under the `s` flag
followed by `w`). -/
def findCI (w : List Char) : List Char → Option (List Char)
  | [] => none
  | c :: cs =>
    match ciDropWord w (c :: cs) with
    | some rest => some rest
    | none => findCI w cs

/-- Like `findCI` but the skipped characters must be matchable by a
non-dotall `.` (JavaScript `.` without the `s` flag does not match
LF, CR, LS, PS). -/
def findCIDot (w : List Char) : List Char → Option (List Char)
  | [] => none
  | c :: cs =>
    match ciDropWord w (c :: cs) with
    | some rest => some rest
    | none =>
      if c = '\n' ∨ c = '\r' ∨ c = Char.ofNat 0x2028 ∨ c = Char.ofNat 0x2029 then none
      else findCIDot w cs

/-- `/<tag[^>]*>.*?<\/tag>/gis`-shaped removal (script and style passes):
the opening literal (e.g. `<script`), then anything up to the first `>`,
then lazily anything (dotall) up to the closing literal. -/
def pairedBlockTm (openLit closeLit : List Char) (l : List Char) :
    Option (List Char × List Char) :=
  match ciDropWord openLit l with
  | none => none
  | some afterName =>
    match breakAtChar '>' afterName with
    | none => none
    | some (_, afterGt) =>
      match findCI closeLit afterGt with
      | none => none
      | some rest => some ([], rest)

/-- The five structural-risk tag names of the iframe-family passes. -/
def frameNames : List (List Char) :=
  ["iframe".toList, "object".toList, "embed".toList, "applet".toList, "meta".toList]

/-- Alternation step of `/<(iframe|object|embed|applet|meta)[^>]*>.*?<\/\1>/gis`:
the names are prefix-free, so trying them in order without backtracking is
equivalent to the regex alternation.  The `\1` backreference repeats the
matched name (case-insensitively under `/i`). -/
def tryFramePaired (rest0 : List Char) : List (List Char) → Option (List Char × List Char)
  | [] => none
  | nm :: nms =>
    match ciDropWord nm rest0 with
    | some afterName =>
      match breakAtChar '>' afterName with
      | none => none
      | some (_, afterGt) =>
        match findCI ('<' :: '/' :: (nm ++ ['>'])) afterGt with
        | none => none
        | some rest => some ([], rest)
    | none => tryFramePaired rest0 nms

/-- `/<(iframe|object|embed|applet|meta)[^>]*>.*?<\/\1>/gis` as a match step. -/
def framePairedTm (l : List Char) : Option (List Char × List Char) :=
  match l with
  | c :: rest0 => if c = '<' then tryFramePaired rest0 frameNames else none
  | [] => none

/-- Alternation step of `/<(iframe|object|embed|applet|meta)[^>]*\/?>/gi`
(`[^>]*\/?>` is equivalent to `[^>]*>`, `/` being a non-`>` character). -/
def tryFrameSelf (rest0 : List Char) : List (List Char) → Option (List Char × List Char)
  | [] => none
  | nm :: nms =>
    match ciDropWord nm rest0 with
    | some afterName => (breakAtChar '>' afterName).map (fun p => ([], p.2))
    | none => tryFrameSelf rest0 nms

/-- `/<(iframe|object|embed|applet|meta)[^>]*\/?>/gi` as a match step. -/
def frameSelfTm (l : List Char) : Option (List Char × List Char) :=
  match l with
  | c :: rest0 => if c = '<' then tryFrameSelf rest0 frameNames else none
  | [] => none

/-- Is `c` one of the two quote characters of `["']`? -/
def isQuoteC (c : Char) : Bool := c = quoteC ∨ c = aposC

/-- `/\s*on\w+\s*=\s*["'][^"']*["']/gi` as a match step (quoted
event-handler attributes).  None of the quantifiers can backtrack
productively (`\s`, `\w`, `=` and the quote classes are pairwise disjoint),
so maximal munch is equivalent to the regex. -/
def handlerQuotedTm (l : List Char) : Option (List Char × List Char) :=
  match l.dropWhile isSpaceJS with
  | o :: n :: rest1 =>
    if ciEq 'o' o ∧ ciEq 'n' n then
      if (rest1.takeWhile isWordChar).isEmpty then none
      else
        match (rest1.dropWhile isWordChar).dropWhile isSpaceJS with
        | '=' :: rest3 =>
          match rest3.dropWhile isSpaceJS with
          | q :: rest5 =>
            if isQuoteC q then
              match rest5.dropWhile (fun c => ¬ isQuoteC c) with
              | _ :: rest6 => some ([], rest6)
              | [] => none
            else none
          | [] => none
        | _ => none
    else none
  | _ => none

/-- `/\s*on\w+\s*=\s*[^>\s]+/gi` as a match step (unquoted event-handler
attributes). -/
def handlerUnquotedTm (l : List Char) : Option (List Char × List Char) :=
  match l.dropWhile isSpaceJS with
  | o :: n :: rest1 =>
    if ciEq 'o' o ∧ ciEq 'n' n then
      if (rest1.takeWhile isWordChar).isEmpty then none
      else
        match (rest1.dropWhile isWordChar).dropWhile isSpaceJS with
        | '=' :: rest3 =>
          let rest4 := rest3.dropWhile isSpaceJS
          if (rest4.takeWhile (fun c => ¬ (c = '>' ∨ isSpaceJS c))).isEmpty then none
          else some ([], rest4.dropWhile (fun c => ¬ (c = '>' ∨ isSpaceJS c)))
        | _ => none
    else none
  | _ => none

/-- `/<[^>]*>/g` as a match step (strip-all-tags pass). -/
def tagStripTm (l : List Char) : Option (List Char × List Char) :=
  match l with
  | c :: rest0 => if c = '<' then (breakAtChar '>' rest0).map (fun p => ([], p.2)) else none
  | [] => none

/-- The allow-listed formatting tags of the `allowBasicFormatting` branch. -/
def safeTags : List (List Char) :=
  ["b".toList, "i".toList, "u".toList, "em".toList, "strong".toList,
   "p".toList, "br".toList, "span".toList, "div".toList]

/-- `/<(\/?)([\w]+)[^>]*>/gi` with the source's callback: keep an allow-listed
tag (lower-cased, attributes dropped), erase every other tag. -/
def tagRewriteTm (l : List Char) : Option (List Char × List Char) :=
  match l with
  | c0 :: rest0 =>
    if c0 = '<' then
      let slash : Bool := headSat (fun c => c = '/') rest0
      let rest1 := if headSat (fun c => c = '/') rest0 then rest0.tail else rest0
      let tag := rest1.takeWhile isWordChar
      if tag.isEmpty then none
      else
        match breakAtChar '>' (rest1.dropWhile isWordChar) with
        | none => none
        | some (_, after) =>
          let lt := tag.map lowerC
          let rep :=
            if safeTags.contains lt then
              '<' :: ((if slash then ['/'] else []) ++ lt ++ ['>'])
            else []
          some (rep, after)
    else none
  | [] => none

/-! ### Link and image passes -/

/-- Hexadecimal digit (upper case), for `encodeURI`. -/
def hexDigitU (n : Nat) : Char :=
  if n < 10 then Char.ofNat ('0'.toNat + n) else Char.ofNat ('A'.toNat + (n - 10))

/-- Characters `encodeURI` leaves unescaped: ASCII alphanumerics and
`; , / ? : @ & = + $ - _ . ! ~ * ' ( ) #`. -/
def encodeURIKeeps (c : Char) : Bool :=
  isAlphaC c ∨ isDigitC c ∨
  c = ';' ∨ c = ',' ∨ c = '/' ∨ c = '?' ∨ c = ':' ∨ c = '@' ∨ c = '&' ∨
  c = '=' ∨ c = '+' ∨ c = '$' ∨ c = '-' ∨ c = '_' ∨ c = '.' ∨ c = '!' ∨
  c = '~' ∨ c = '*' ∨ c = aposC ∨ c = '(' ∨ c = ')' ∨ c = '#'

/-- Percent-encoding of one character (UTF-8 bytes, upper-case hex). -/
def encodeURIChar (c : Char) : List Char :=
  if encodeURIKeeps c then [c]
  else
    (String.toUTF8 (String.singleton c)).toList.flatMap
      (fun b => ['%', hexDigitU (b.toNat / 16), hexDigitU (b.toNat % 16)])

/-- JavaScript `encodeURI` on the characters our model can produce. -/
def encodeURIList (l : List Char) : List Char := l.flatMap encodeURIChar

/-- First match of `/name\s*=\s*["']([^"']+)["']/i` inside an attribute
text: returns the quoted value (which the regex requires to be non-empty). -/
def findAttrValue (name : List Char) : List Char → Option (List Char)
  | [] => none
  | c :: cs =>
    match ciDropWord name (c :: cs) with
    | some rest1 =>
      match rest1.dropWhile isSpaceJS with
      | '=' :: rest2 =>
        match rest2.dropWhile isSpaceJS with
        | q :: rest3 =>
          if isQuoteC q then
            let body := rest3.takeWhile (fun d => ¬ isQuoteC d)
            if body.isEmpty then findAttrValue name cs
            else
              match rest3.dropWhile (fun d => ¬ isQuoteC d) with
              | _ :: _ => some body
              | [] => findAttrValue name cs
          else findAttrValue name cs
        | [] => findAttrValue name cs
      | _ => findAttrValue name cs
    | none => findAttrValue name cs

/-- `/^(https?:|mailto:)/i`. -/
def hrefProtoOk (href : List Char) : Bool :=
  (ciDropWord "http:".toList href).isSome ∨ (ciDropWord "https:".toList href).isSome ∨
  (ciDropWord "mailto:".toList href).isSome

/-- `/^(https?:|data:image\/)/i`. -/
def srcProtoOk (src : List Char) : Bool :=
  (ciDropWord "http:".toList src).isSome ∨ (ciDropWord "https:".toList src).isSome ∨
  (ciDropWord "data:image/".toList src).isSome

/-- `/<a[^>]*>.*?<\/a>/gi` as a match step (anchor removal; `.` is not
dotall here). -/
def linkRemoveTm (l : List Char) : Option (List Char × List Char) :=
  match l with
  | c0 :: c :: rest0 =>
    if c0 = '<' ∧ ciEq 'a' c then
      match breakAtChar '>' rest0 with
      | none => none
      | some (_, afterGt) =>
        (findCIDot "</a>".toList afterGt).map (fun rest => ([], rest))
    else none
  | _ => none

/-- Forward declaration of `escapeHTML`'s character table (needed by the
link/image rebuild callbacks below). -/
def entity02 (c : Char) : List Char :=
  if c = '&' then "&amp;".toList
  else if c = '<' then "&lt;".toList
  else if c = '>' then "&gt;".toList
  else if c = quoteC then "&quot;".toList
  else if c = aposC then "&#x27;".toList
  else if c = '/' then "&#x2F;".toList
  else if c = backtickC then "&#x60;".toList
  else if c = '=' then "&#x3D;".toList
  else [c]

/-- `escapeHTML` (examples/02-xss-prevention/test.js, lines 736-753): entity
encoding of the eight characters `& < > " ' / ` =`. -/
def escapeHTMLList : List Char → List Char
  | [] => []
  | c :: cs => entity02 c ++ escapeHTMLList cs

/-- The rebuilt `<a ...>` tag of the `allowLinks` branch. -/
def buildLinkRep (attrs : List Char) : List Char :=
  let hrefPart : List Char :=
    match findAttrValue "href".toList attrs with
    | some href =>
      if hrefProtoOk href then
        (" href=".toList ++ [quoteC]) ++ encodeURIList href ++ [quoteC]
      else []
    | none => []
  let titlePart : List Char :=
    match findAttrValue "title".toList attrs with
    | some t => (" title=".toList ++ [quoteC]) ++ escapeHTMLList t ++ [quoteC]
    | none => []
  "<a".toList ++ hrefPart ++ titlePart ++ ['>']

/-- `/<a\s+([^>]*?)>/gi` with the source's attribute-sanitizing callback. -/
def linkAllowTm (l : List Char) : Option (List Char × List Char) :=
  match l with
  | c0 :: c :: rest0 =>
    if c0 = '<' ∧ ciEq 'a' c then
      if (rest0.takeWhile isSpaceJS).isEmpty then none
      else
        match breakAtChar '>' (rest0.dropWhile isSpaceJS) with
        | none => none
        | some (attrs, after) => some (buildLinkRep attrs, after)
    else none
  | _ => none

/-- `/<img[^>]*>/gi` as a match step (image removal). -/
def imgRemoveTm (l : List Char) : Option (List Char × List Char) :=
  match ciDropWord "<img".toList l with
  | none => none
  | some rest0 => (breakAtChar '>' rest0).map (fun p => ([], p.2))

/-- The rebuilt `<img ...>` tag of the `allowImages` branch. -/
def buildImgRep (attrs : List Char) : List Char :=
  let srcPart : List Char :=
    match findAttrValue "src".toList attrs with
    | some src =>
      if srcProtoOk src then
        (" src=".toList ++ [quoteC]) ++ encodeURIList src ++ [quoteC]
      else []
    | none => []
  let altPart : List Char :=
    match findAttrValue "alt".toList attrs with
    | some t => (" alt=".toList ++ [quoteC]) ++ escapeHTMLList t ++ [quoteC]
    | none => []
  "<img".toList ++ srcPart ++ altPart ++ ['>']

/-- `/<img\s+([^>]*?)>/gi` with the source's attribute-sanitizing callback. -/
def imgAllowTm (l : List Char) : Option (List Char × List Char) :=
  match ciDropWord "<img".toList l with
  | none => none
  | some rest0 =>
    if (rest0.takeWhile isSpaceJS).isEmpty then none
    else
      match breakAtChar '>' (rest0.dropWhile isSpaceJS) with
      | none => none
      | some (attrs, after) => some (buildImgRep attrs, after)

/-! ### The sanitizer pipeline -/

/-- The options object of `sanitizeHTML`, with the source's defaults. -/
structure SanitizeOptions where
  allowBasicFormatting : Bool := false
  allowLinks : Bool := false
  allowImages : Bool := false
  maxLength : Nat := 10000
deriving DecidableEq

/-- `sanitizeHTML` (examples/02-xss-prevention/test.js, lines 621-729) on
character lists: truncation, the removal/neutralization passes in source
order, the three policy branches, and the final `escapeHTML`. -/
def sanitizeHTMLList (l : List Char) (o : SanitizeOptions) : List Char :=
  let h1 := l.take o.maxLength
  let h2 := rewriteTop (pairedBlockTm "<script".toList "</script>".toList) h1
  let h3 := rewriteTop (pairedBlockTm "<style".toList "</style>".toList) h2
  let h4 := rewriteTop framePairedTm h3
  let h5 := rewriteTop frameSelfTm h4
  let h6 := rewriteTop handlerQuotedTm h5
  let h7 := rewriteTop handlerUnquotedTm h6
  let h8 := replaceScheme "javascript".toList h7
  let h9 := replaceScheme "data".toList h8
  let h10 := replaceScheme "vbscript".toList h9
  let h11 := rewriteTop exprCssTm h10
  let h12 := rewriteTop importAtTm h11
  let h13 :=
    if o.allowBasicFormatting then rewriteTop tagRewriteTm h12
    else rewriteTop tagStripTm h12
  let h14 :=
    if o.allowLinks then rewriteTop linkAllowTm h13 else rewriteTop linkRemoveTm h13
  let h15 :=
    if o.allowImages then rewriteTop imgAllowTm h14 else rewriteTop imgRemoveTm h14
  escapeHTMLList h15

/-- `sanitizeHTML` on strings (the non-string early return of the source is
outside the model: inputs here are always strings). -/
def sanitizeHTML (html : String) (o : SanitizeOptions) : String :=
  (sanitizeHTMLList html.toList o).asString

/-! ## JavaScript numbers

Exact rationals (an unnormalized `Int` numerator/denominator pair, the
denominator never zero for values the model constructs) plus the IEEE
special values.  Rounding of IEEE doubles is not modelled; no theorem in
this file depends on it. -/

/-- A JavaScript number. -/
inductive JNum where
  | fin (n : Int) (d : Int)
  | nan
  | inf
  | ninf
deriving DecidableEq

/-- Sign of a finite pair (`-1`, `0` or `1`). -/
def finSign (n d : Int) : Int := n.sign * d.sign

/-- IEEE addition. -/
def jadd : JNum → JNum → JNum
  | .fin a b, .fin c d => .fin (a * d + c * b) (b * d)
  | .nan, _ => .nan
  | _, .nan => .nan
  | .inf, .ninf => .nan
  | .ninf, .inf => .nan
  | .inf, _ => .inf
  | _, .inf => .inf
  | .ninf, _ => .ninf
  | _, .ninf => .ninf

/-- IEEE negation. -/
def jneg : JNum → JNum
  | .fin n d => .fin (-n) d
  | .nan => .nan
  | .inf => .ninf
  | .ninf => .inf

/-- IEEE subtraction. -/
def jsub (a b : JNum) : JNum := jadd a (jneg b)

/-- IEEE multiplication. -/
def jmul : JNum → JNum → JNum
  | .fin a b, .fin c d => .fin (a * c) (b * d)
  | .nan, _ => .nan
  | _, .nan => .nan
  | .inf, .inf => .inf
  | .inf, .ninf => .ninf
  | .ninf, .inf => .ninf
  | .ninf, .ninf => .inf
  | .inf, .fin n d => if n = 0 then .nan else if finSign n d = 1 then .inf else .ninf
  | .fin n d, .inf => if n = 0 then .nan else if finSign n d = 1 then .inf else .ninf
  | .ninf, .fin n d => if n = 0 then .nan else if finSign n d = 1 then .ninf else .inf
  | .fin n d, .ninf => if n = 0 then .nan else if finSign n d = 1 then .ninf else .inf

/-- IEEE division (signed zero is not modelled: a zero numerator over a
positive literal denominator behaves as `+0`, which is what the source's
expressions can produce). -/
def jdiv : JNum → JNum → JNum
  | .nan, _ => .nan
  | _, .nan => .nan
  | .fin a b, .fin c d =>
    if c = 0 then
      if a = 0 then .nan else if finSign a b = 1 then .inf else .ninf
    else .fin (a * d) (b * c)
  | .inf, .inf => .nan
  | .inf, .ninf => .nan
  | .ninf, .inf => .nan
  | .ninf, .ninf => .nan
  | .inf, .fin n d => if n = 0 ∨ finSign n d = 1 then .inf else .ninf
  | .ninf, .fin n d => if n = 0 ∨ finSign n d = 1 then .ninf else .inf
  | .fin _ _, .inf => .fin 0 1
  | .fin _ _, .ninf => .fin 0 1

/-- JavaScript `%` (remainder, sign following the dividend):
`a % b = a - b * trunc(a / b)`. -/
def jmod : JNum → JNum → JNum
  | .nan, _ => .nan
  | _, .nan => .nan
  | .inf, _ => .nan
  | .ninf, _ => .nan
  | .fin a b, .inf => .fin a b
  | .fin a b, .ninf => .fin a b
  | .fin a b, .fin c d =>
    if c = 0 then .nan
    else
      let t : Int := (a * d).tdiv (b * c)
      jsub (.fin a b) (jmul (.fin c d) (.fin t 1))

/-- `Number.isFinite`-style test on a number. -/
def jIsFinite : JNum → Bool
  | .fin _ _ => true
  | _ => false

/-! ## JavaScript values

Host objects whose internals the claims never inspect (`Math`, host
functions, the built-in prototype objects) are modelled opaquely; property
lookups the model cannot answer faithfully are reported as "unmodelled"
rather than being given made-up results. -/

/-- A JavaScript value. -/
inductive JValue where
  | undef
  | jnull
  | bool (b : Bool)
  | num (q : JNum)
  | str (s : String)
  | obj (fields : List (String × JValue))
  | arr (elems : List JValue)
  | hostObj (name : String)
  | hostFn (name : String)

/-- JavaScript `typeof`. -/
def typeofJS : JValue → String
  | .undef => "undefined"
  | .jnull => "object"
  | .bool _ => "boolean"
  | .num _ => "number"
  | .str _ => "string"
  | .obj _ => "object"
  | .arr _ => "object"
  | .hostObj _ => "object"
  | .hostFn _ => "function"

/-- JavaScript truthiness (negation of falsiness). -/
def truthyJS : JValue → Bool
  | .undef => false
  | .jnull => false
  | .bool b => b
  | .num (.fin n _) => ¬ (n = 0)
  | .num .nan => false
  | .num _ => true
  | .str s => ¬ (s = "")
  | _ => true

/-- The own (string-keyed, enumerable) property keys of `Object.prototype`
in a standard host, as consulted by the `in` operator and property reads.
(They are all non-enumerable, so `for...in` never sees them, but `in` and
reads do.) -/
def objectProtoKeys : List String :=
  ["constructor", "hasOwnProperty", "isPrototypeOf", "propertyIsEnumerable",
   "toLocaleString", "toString", "valueOf", "__defineGetter__", "__defineSetter__",
   "__lookupGetter__", "__lookupSetter__", "__proto__"]

/-- Own property keys of `Array.prototype` (besides those it inherits from
`Object.prototype`). -/
def arrayProtoOwnKeys : List String :=
  ["length", "constructor", "at", "concat", "copyWithin", "fill", "find",
   "findIndex", "findLast", "findLastIndex", "lastIndexOf", "pop", "push",
   "reverse", "shift", "unshift", "slice", "sort", "splice", "includes",
   "indexOf", "join", "keys", "entries", "values", "forEach", "filter",
   "flat", "flatMap", "map", "every", "some", "reduce", "reduceRight",
   "toReversed", "toSorted", "toSpliced", "with", "toLocaleString", "toString"]

/-- Own-property test on a plain object. -/
def objHasOwn (fields : List (String × JValue)) (k : String) : Bool :=
  fields.any (fun p => p.1 = k)

/-- Own-property test on an array (`length` and the in-bounds indices). -/
def arrHasOwn (elems : List JValue) (k : String) : Bool :=
  k = "length" ∨ (List.range elems.length).any (fun i => k = toString i)

/-- The `in` operator (own properties plus the prototype chain).  `none`
means the lookup left the modelled fragment. -/
def hasPropJS : JValue → String → Option Bool
  | .obj fields, k => some (objHasOwn fields k ∨ k ∈ objectProtoKeys)
  | .arr elems, k =>
    some (arrHasOwn elems k ∨ k ∈ arrayProtoOwnKeys ∨ k ∈ objectProtoKeys)
  | .hostObj "Object.prototype", k => some (k ∈ objectProtoKeys)
  | .hostObj "Array.prototype", k =>
    some (k ∈ arrayProtoOwnKeys ∨ k ∈ objectProtoKeys)
  | _, _ => none

/-- Property read through the `Object.prototype` members (for a receiver
whose immediate prototype is `Object.prototype`). -/
def objectProtoMember (k : String) : JValue :=
  if k = "constructor" then .hostFn "Object"
  else .hostFn ("Object.prototype." ++ k)

/-- Property read on a plain object: own data properties first, then the
inherited `Object.prototype` members (`__proto__` is the accessor returning
the prototype itself); anything else reads as `undefined`. -/
def objGetProp (fields : List (String × JValue)) (k : String) : JValue :=
  match fields.lookup k with
  | some v => v
  | none =>
    if k = "__proto__" then .hostObj "Object.prototype"
    else if k ∈ objectProtoKeys then objectProtoMember k
    else (.undef : JValue)

/-- Indexed element read on an array value. -/
def arrIndexGet (elems : List JValue) (k : String) : Option JValue :=
  (List.range elems.length).findSome?
    (fun i => if k = toString i then elems.get? i else none)

/-- Property read on an array: own (`length`, indices), then
`Array.prototype`, then `Object.prototype`. -/
def arrGetProp (elems : List JValue) (k : String) : JValue :=
  if k = "length" then .num (.fin elems.length 1)
  else
    match arrIndexGet elems k with
    | some v => v
    | none =>
      if k = "__proto__" then .hostObj "Array.prototype"
      else if k = "constructor" then .hostFn "Array"
      else if k ∈ arrayProtoOwnKeys then .hostFn ("Array.prototype." ++ k)
      else if k ∈ objectProtoKeys then objectProtoMember k
      else (.undef : JValue)

/-- Property read (`v[k]`) on the modelled fragment; `none` = unmodelled
host lookup. -/
def getPropJS : JValue → String → Option JValue
  | .obj fields, k => some (objGetProp fields k)
  | .arr elems, k => some (arrGetProp elems k)
  | .hostObj "Object.prototype", k =>
    some (if k = "__proto__" then .jnull
          else if k ∈ objectProtoKeys then objectProtoMember k
          else .undef)
  | .hostObj "Array.prototype", k =>
    some (if k = "length" then .num (.fin 0 1)
          else if k = "constructor" then .hostFn "Array"
          else if k ∈ arrayProtoOwnKeys then .hostFn ("Array.prototype." ++ k)
          else if k = "__proto__" then .hostObj "Object.prototype"
          else if k ∈ objectProtoKeys then objectProtoMember k
          else .undef)
  | _, _ => none

/-! ## The constrained expression evaluator

`secureEval` (examples/03-eval-alternatives/secure.js, lines 16-84) compiles
the vetted expression with
`new Function(...Object.keys(safeContext), '"use strict"; return (expr);')`
and calls it with the context values.  Per ECMA-262, a function produced by
the `Function` constructor closes over the *global* environment: its body
resolves identifiers first against the parameters and then against the
global scope.  The `new Function` execution is modelled by parsing the
expression (whose characters were already restricted by the allow-list
gate) and evaluating it under that two-level scope; constructs the model
does not cover (unsupported reserved words, host-function application,
`ToPrimitive` on objects, …) yield the explicit result `unmodelled`, and
`secureEval` then returns `none` instead of guessing. -/

/-- Abstract syntax of the modelled expression fragment. -/
inductive JsExpr where
  | lit (q : JNum)
  | boolLit (b : Bool)
  | nullLit
  | thisLit
  | ident (x : String)
  | member (e : JsExpr) (f : String)
  | call (f : JsExpr) (args : List JsExpr)
  | unop (negate : Bool) (e : JsExpr)
  | binop (op : Char) (a b : JsExpr)
  | seqE (a b : JsExpr)

/-- Outcome of evaluating (part of) an expression. -/
inductive EvalRes where
  | ok (v : JValue)
  | thrown
  | unmod

/-- Reserved words that terminate `new Function` compilation with a syntax
error when used as parameter names, and (beyond `true`/`false`/`null`/
`this`) mark an expression as outside the modelled fragment when they occur
as tokens. -/
def reservedWords : List String :=
  ["break", "case", "catch", "class", "const", "continue", "debugger",
   "default", "delete", "do", "else", "enum", "export", "extends", "finally",
   "for", "function", "if", "import", "in", "instanceof", "new", "return",
   "super", "switch", "throw", "try", "typeof", "var", "void", "while",
   "with", "yield", "let", "static", "await", "of"]

/-- ToNumber on the modelled values (`none` = unmodelled: object-valued
operands would go through `ToPrimitive`, and exotic string numeric syntax
such as hex literals is not modelled). -/
def toNumberJS : JValue → Option JNum
  | .num q => some q
  | .bool b => some (.fin (if b then 1 else 0) 1)
  | .jnull => some (.fin 0 1)
  | .undef => some .nan
  | .str s => strToNumber s.toList
  | _ => none
where
  /-- Numeric conversion of a string: trimmed; empty means `0`; an optional
  sign, digits with an optional fraction; `Infinity` forms; everything else
  (including radix prefixes, which are left unmodelled) is `NaN`. -/
  strToNumber (l : List Char) : Option JNum :=
    let t := (l.dropWhile isSpaceJS).reverse.dropWhile isSpaceJS |>.reverse
    if t.isEmpty then some (.fin 0 1)
    else if t = "Infinity".toList ∨ t = "+Infinity".toList then some .inf
    else if t = "-Infinity".toList then some .ninf
    else
      let (sgn, t2) : Int × List Char :=
        match t with
        | '-' :: r => (-1, r)
        | '+' :: r => (1, r)
        | r => (1, r)
      if t2.any (fun c => c = 'e' ∨ c = 'E' ∨ c = 'x' ∨ c = 'X' ∨ c = 'o' ∨
                          c = 'O' ∨ c = 'b' ∨ c = 'B') then none
      else
        let intp := t2.takeWhile isDigitC
        match t2.dropWhile isDigitC with
        | [] => if intp.isEmpty then some .nan else some (.fin (sgn * digitsToNat intp) 1)
        | '.' :: fr =>
          if fr.all isDigitC ∧ ¬ (intp.isEmpty ∧ fr.isEmpty) then
            some (.fin (sgn * (digitsToNat intp * (10 : Int) ^ fr.length + digitsToNat fr))
                       ((10 : Int) ^ fr.length))
          else some .nan
        | _ => some .nan
  /-- Value of a digit string. -/
  digitsToNat (l : List Char) : Int :=
    l.foldl (fun acc c => acc * 10 + (c.toNat - '0'.toNat : Nat)) (0 : Int)

/-- ToString on the modelled values (`none` = unmodelled: non-integer
number formatting and `ToPrimitive` on objects). -/
def toStringJS : JValue → Option String
  | .str s => some s
  | .bool b => some (if b then "true" else "false")
  | .jnull => some "null"
  | .undef => some "undefined"
  | .num .nan => some "NaN"
  | .num .inf => some "Infinity"
  | .num .ninf => some "-Infinity"
  | .num (.fin n d) =>
    if d ≠ 0 ∧ n.tmod d = 0 then some (toString (n.tdiv d)) else none
  | _ => none

/-- The value bindings every JavaScript global scope provides (the
non-configurable value properties of the global object); further ambient
globals are supplied by the quantified global environment `g`. -/
def baseGlobals : List (String × JValue) :=
  [("undefined", .undef), ("NaN", .num .nan), ("Infinity", .num .inf)]

/-- Identifier resolution of a `Function`-constructor function body:
parameters first, then the ambient global environment (this fallback is
exactly what the ECMA-262 `Function` constructor semantics prescribe — the
compiled body is *not* cut off from globals), then the universal global
value properties; otherwise a strict-mode `ReferenceError`. -/
def lookupVar (params g : List (String × JValue)) (x : String) : EvalRes :=
  match params.lookup x with
  | some v => .ok v
  | none =>
    match g.lookup x with
    | some v => .ok v
    | none =>
      match baseGlobals.lookup x with
      | some v => .ok v
      | none => .thrown

/-- Member access `v.f` (throws on `null`/`undefined`; unmodelled host
receivers answer `unmod`). -/
def memberAccess (v : JValue) (f : String) : EvalRes :=
  match v with
  | .undef => .thrown
  | .jnull => .thrown
  | .obj fields => .ok (objGetProp fields f)
  | .arr elems => .ok (arrGetProp elems f)
  | .hostObj nm =>
    match getPropJS (.hostObj nm) f with
    | some w => .ok w
    | none => .unmod
  | _ => .unmod

/-- Evaluation, fuel-driven so the kernel can compute it (callers pass fuel
exceeding the expression size; `unmod` on exhaustion). -/
def evalE (params g : List (String × JValue)) : Nat → JsExpr → EvalRes
  | 0, _ => .unmod
  | _ + 1, .lit q => .ok (.num q)
  | _ + 1, .boolLit b => .ok (.bool b)
  | _ + 1, .nullLit => .ok .jnull
  | _ + 1, .thisLit => .ok .undef
  | _ + 1, .ident x => lookupVar params g x
  | fuel + 1, .member e f =>
    match evalE params g fuel e with
    | .ok v => memberAccess v f
    | r => r
  | fuel + 1, .call f args =>
    match evalE params g fuel f with
    | .ok v =>
      match evalArgs params g fuel args with
      | .ok _ => if typeofJS v = "function" then .unmod else .thrown
      | .thrown => .thrown
      | .unmod => .unmod
    | r => r
  | fuel + 1, .unop negate e =>
    match evalE params g fuel e with
    | .ok v =>
      match toNumberJS v with
      | some q => .ok (.num (if negate then jneg q else q))
      | none => .unmod
    | r => r
  | fuel + 1, .binop op a b =>
    match evalE params g fuel a with
    | .ok va =>
      match evalE params g fuel b with
      | .ok vb => binopSem op va vb
      | r => r
    | r => r
  | fuel + 1, .seqE a b =>
    match evalE params g fuel a with
    | .ok _ => evalE params g fuel b
    | r => r
where
  /-- Argument-list evaluation (arguments are evaluated even though the
  model never applies a function: application is outside the fragment). -/
  evalArgs (params g : List (String × JValue)) : Nat → List JsExpr → EvalRes
    | 0, _ => .unmod
    | _ + 1, [] => .ok .undef
    | fuel + 1, e :: es =>
      match evalE params g fuel e with
      | .ok _ => evalArgs params g fuel es
      | r => r
  /-- Semantics of `+ - * / %`: `+` concatenates when either primitive
  operand is a string, otherwise both operands go through ToNumber. -/
  binopSem (op : Char) (va vb : JValue) : EvalRes :=
    if op = '+' then
      match va, vb with
      | .obj _, _ => .unmod
      | .arr _, _ => .unmod
      | .hostObj _, _ => .unmod
      | .hostFn _, _ => .unmod
      | _, .obj _ => .unmod
      | _, .arr _ => .unmod
      | _, .hostObj _ => .unmod
      | _, .hostFn _ => .unmod
      | .str sa, w =>
        match toStringJS w with
        | some sw => .ok (.str (sa ++ sw))
        | none => .unmod
      | v, .str sb =>
        match toStringJS v with
        | some sv => .ok (.str (sv ++ sb))
        | none => .unmod
      | v, w =>
        match toNumberJS v, toNumberJS w with
        | some qa, some qb => .ok (.num (jadd qa qb))
        | _, _ => .unmod
    else
      match toNumberJS va, toNumberJS vb with
      | some qa, some qb =>
        if op = '-' then .ok (.num (jsub qa qb))
        else if op = '*' then .ok (.num (jmul qa qb))
        else if op = '/' then .ok (.num (jdiv qa qb))
        else if op = '%' then .ok (.num (jmod qa qb))
        else .unmod
      | _, _ => .unmod

/-! ### Parsing the expression fragment -/

/-- Parse-time outcome: a syntax error (which `new Function` raises as a
`SyntaxError`, caught by the source's `try`), or departure from the
modelled fragment. -/
inductive PErr where
  | syn
  | unmod
deriving DecidableEq

/-- Skip JavaScript whitespace. -/
def skipWs (l : List Char) : List Char := l.dropWhile isSpaceJS

/-- Can a character start an identifier (within the evaluator's character
gate, which admits no `$`)? -/
def identStart (c : Char) : Bool := isAlphaC c ∨ c = '_'

/-- The maximal `\w`-runs of a string (token shapes for the reserved-word
pre-scan). -/
def wordRunsGo : List Char → List Char → List (List Char)
  | [], acc => if acc.isEmpty then [] else [acc.reverse]
  | c :: cs, acc =>
    if isWordChar c then wordRunsGo cs (c :: acc)
    else if acc.isEmpty then wordRunsGo cs [] else acc.reverse :: wordRunsGo cs []

/-- Does the expression contain a reserved word as a token, or one of the
two-character operators (`--`, `++`, `**`, `//`, `/*`) the fragment does
not model?  Such expressions are declared unmodelled rather than given a
guessed semantics. -/
def outsideFragment (l : List Char) : Bool :=
  (wordRunsGo l []).any (fun r => reservedWords.contains r.asString) ∨
  (l.zip l.tail).any (fun p =>
    (p.1 = '-' ∧ p.2 = '-') ∨ (p.1 = '+' ∧ p.2 = '+') ∨
    (p.1 = '*' ∧ p.2 = '*') ∨ (p.1 = '/' ∧ p.2 = '/') ∨ (p.1 = '/' ∧ p.2 = '*'))

/-- Lex a numeric literal at the head of `l` (decimal, optional fraction and
exponent).  Radix-prefixed and BigInt-suffixed literals are unmodelled. -/
def lexNumber (l : List Char) : Except PErr (JNum × List Char) :=
  let intp := l.takeWhile isDigitC
  let r1 := l.dropWhile isDigitC
  let (frac, r2) : List Char × List Char :=
    match r1 with
    | '.' :: rf => (rf.takeWhile isDigitC, rf.dropWhile isDigitC)
    | _ => ([], r1)
  if intp.isEmpty ∧ frac.isEmpty then .error .syn
  else if intp = ['0'] ∧ frac.isEmpty ∧
          headSat (fun c => c = 'x' ∨ c = 'X' ∨ c = 'b' ∨ c = 'B' ∨ c = 'o' ∨ c = 'O') r1
  then .error .unmod
  else
    let mantissa : Int := digitsVal intp * (10 : Int) ^ frac.length + digitsVal frac
    match r2 with
    | 'e' :: re => lexExponent mantissa frac.length re
    | 'E' :: re => lexExponent mantissa frac.length re
    | c :: _ =>
      if isWordChar c then .error .unmod
      else .ok (.fin mantissa ((10 : Int) ^ frac.length), r2)
    | [] => .ok (.fin mantissa ((10 : Int) ^ frac.length), r2)
where
  /-- Value of a digit run. -/
  digitsVal (ds : List Char) : Int :=
    ds.foldl (fun acc c => acc * 10 + (c.toNat - '0'.toNat : Nat)) (0 : Int)
  /-- Continue after `e`/`E`. -/
  lexExponent (mantissa : Int) (fracLen : Nat) (re : List Char) :
      Except PErr (JNum × List Char) :=
    let (esgn, re2) : Int × List Char :=
      match re with
      | '-' :: r => (-1, r)
      | '+' :: r => (1, r)
      | r => (1, r)
    let eds := re2.takeWhile isDigitC
    let re3 := re2.dropWhile isDigitC
    if eds.isEmpty then .error .syn
    else
      match re3 with
      | c :: _ => if isWordChar c ∨ c = '.' then .error .unmod else
          .ok (mkNum mantissa fracLen (esgn * digitsVal eds), re3)
      | [] => .ok (mkNum mantissa fracLen (esgn * digitsVal eds), re3)
  /-- `mantissa / 10^fracLen * 10^e` as a finite pair. -/
  mkNum (mantissa : Int) (fracLen : Nat) (e : Int) : JNum :=
    .fin (mantissa * (10 : Int) ^ e.toNat)
         ((10 : Int) ^ (fracLen + (-e).toNat))

mutual

/-- Comma-sequence expression (lowest precedence). -/
def parseSeq : Nat → List Char → Except PErr (JsExpr × List Char)
  | 0, _ => .error .unmod
  | n + 1, l => do
    let (a, r) ← parseAdd n l
    parseSeqLoop n a r

/-- Tail of a comma sequence. -/
def parseSeqLoop : Nat → JsExpr → List Char → Except PErr (JsExpr × List Char)
  | 0, _, _ => .error .unmod
  | n + 1, a, l =>
    match skipWs l with
    | ',' :: r => do
      let (b, r2) ← parseAdd n r
      parseSeqLoop n (.seqE a b) r2
    | _ => .ok (a, l)

/-- Additive expression. -/
def parseAdd : Nat → List Char → Except PErr (JsExpr × List Char)
  | 0, _ => .error .unmod
  | n + 1, l => do
    let (a, r) ← parseMul n l
    parseAddLoop n a r

/-- Tail of an additive chain (left-associative). -/
def parseAddLoop : Nat → JsExpr → List Char → Except PErr (JsExpr × List Char)
  | 0, _, _ => .error .unmod
  | n + 1, a, l =>
    match skipWs l with
    | '+' :: r => do
      let (b, r2) ← parseMul n r
      parseAddLoop n (.binop '+' a b) r2
    | '-' :: r => do
      let (b, r2) ← parseMul n r
      parseAddLoop n (.binop '-' a b) r2
    | _ => .ok (a, l)

/-- Multiplicative expression. -/
def parseMul : Nat → List Char → Except PErr (JsExpr × List Char)
  | 0, _ => .error .unmod
  | n + 1, l => do
    let (a, r) ← parseUnary n l
    parseMulLoop n a r

/-- Tail of a multiplicative chain (left-associative). -/
def parseMulLoop : Nat → JsExpr → List Char → Except PErr (JsExpr × List Char)
  | 0, _, _ => .error .unmod
  | n + 1, a, l =>
    match skipWs l with
    | '*' :: r => do
      let (b, r2) ← parseUnary n r
      parseMulLoop n (.binop '*' a b) r2
    | '/' :: r => do
      let (b, r2) ← parseUnary n r
      parseMulLoop n (.binop '/' a b) r2
    | '%' :: r => do
      let (b, r2) ← parseUnary n r
      parseMulLoop n (.binop '%' a b) r2
    | _ => .ok (a, l)

/-- Unary `-`/`+`. -/
def parseUnary : Nat → List Char → Except PErr (JsExpr × List Char)
  | 0, _ => .error .unmod
  | n + 1, l =>
    match skipWs l with
    | '-' :: r => do
      let (e, r2) ← parseUnary n r
      .ok (.unop true e, r2)
    | '+' :: r => do
      let (e, r2) ← parseUnary n r
      .ok (.unop false e, r2)
    | _ => parsePostfix n l

/-- Postfix chain: a primary followed by members and calls. -/
def parsePostfix : Nat → List Char → Except PErr (JsExpr × List Char)
  | 0, _ => .error .unmod
  | n + 1, l => do
    let (e, r) ← parsePrimary n l
    parsePostfixLoop n e r

/-- Tail of a postfix chain. -/
def parsePostfixLoop : Nat → JsExpr → List Char → Except PErr (JsExpr × List Char)
  | 0, _, _ => .error .unmod
  | n + 1, e, l =>
    match skipWs l with
    | '.' :: r =>
      match skipWs r with
      | c :: _ =>
        if identStart c then
          let run := (skipWs r).takeWhile isWordChar
          parsePostfixLoop n (.member e run.asString) ((skipWs r).dropWhile isWordChar)
        else .error .syn
      | [] => .error .syn
    | '(' :: r => do
      let (args, r2) ← parseArgs n r
      parsePostfixLoop n (.call e args) r2
    | _ => .ok (e, l)

/-- Argument list after `(`, up to the closing `)`. -/
def parseArgs : Nat → List Char → Except PErr (List JsExpr × List Char)
  | 0, _ => .error .unmod
  | n + 1, l =>
    match skipWs l with
    | ')' :: r => .ok ([], r)
    | _ => do
      let (a, r) ← parseAdd n l
      parseArgsLoop n [a] r

/-- Further arguments, comma-separated. -/
def parseArgsLoop : Nat → List JsExpr → List Char → Except PErr (List JsExpr × List Char)
  | 0, _, _ => .error .unmod
  | n + 1, acc, l =>
    match skipWs l with
    | ',' :: r => do
      let (a, r2) ← parseAdd n r
      parseArgsLoop n (acc ++ [a]) r2
    | ')' :: r => .ok (acc, r)
    | _ => .error .syn

/-- Primary expression: parenthesized sequence, numeric literal, keyword
literal, or identifier. -/
def parsePrimary : Nat → List Char → Except PErr (JsExpr × List Char)
  | 0, _ => .error .unmod
  | n + 1, l =>
    match skipWs l with
    | '(' :: r => do
      let (e, r2) ← parseSeq n r
      match skipWs r2 with
      | ')' :: r3 => .ok (e, r3)
      | _ => .error .syn
    | c :: cs =>
      if isDigitC c ∨ (c = '.' ∧ headSat isDigitC cs) then
        (lexNumber (c :: cs)).map (fun p => (.lit p.1, p.2))
      else if identStart c then
        let run := ((c :: cs).takeWhile isWordChar).asString
        let rest := (c :: cs).dropWhile isWordChar
        if run = "true" then .ok (.boolLit true, rest)
        else if run = "false" then .ok (.boolLit false, rest)
        else if run = "null" then .ok (.nullLit, rest)
        else if run = "this" then .ok (.thisLit, rest)
        else if reservedWords.contains run then .error .unmod
        else .ok (.ident run, rest)
      else .error .syn
    | [] => .error .syn

end

/-- Parse a complete expression (the body `return ( expr );` compiled by
`new Function`): the whole input must be consumed. -/
def parseExpression (l : List Char) : Except PErr JsExpr :=
  if outsideFragment l then .error .unmod
  else
    match parseSeq (8 * l.length + 16) l with
    | .ok (e, rest) => if (skipWs rest).isEmpty then .ok e else .error .syn
    | .error e => .error e

/-! ### `secureEval` -/

/-- The result object of `secureEval` (initialized by the source to
`{success: false, value: null, error: null}`; the model represents the
JavaScript `null` of the `value` field as `JValue.jnull`). -/
structure EvaluationResult where
  success : Bool
  value : JValue
  error : Option String

/-- Case-sensitive substring containment, the model of
`String.prototype.includes`. -/
def hasSubCS (w : List Char) : List Char → Bool
  | [] => w.isEmpty
  | c :: cs => w.isPrefixOf (c :: cs) || hasSubCS w cs

/-- The character allow-list `/^[\d\w\s+\-*/.(),%]+$/` of `secureEval`. -/
def allowedExprChar (c : Char) : Bool :=
  isDigitC c ∨ isWordChar c ∨ isSpaceJS c ∨ c = '+' ∨ c = '-' ∨ c = '*' ∨
  c = '/' ∨ c = '.' ∨ c = '(' ∨ c = ')' ∨ c = ',' ∨ c = '%'

/-- The `dangerousKeywords` array of `secureEval`, in source order. -/
def dangerousKeywords : List String :=
  ["eval", "Function", "constructor", "__proto__", "prototype",
   "import", "require", "process", "global", "window", "document",
   "alert", "confirm", "prompt", "console", "setTimeout", "setInterval"]

/-- The default entries of `safeContext` (`Math`, `parseInt`, `parseFloat`,
`Number`), modelled opaquely. -/
def defaultContextEntries : List (String × JValue) :=
  [("Math", .hostObj "Math"), ("parseInt", .hostFn "parseInt"),
   ("parseFloat", .hostFn "parseFloat"), ("Number", .hostFn "Number")]

/-- The object spread `{Math, parseInt, parseFloat, Number, ...context}`:
default keys keep their position (values overridden by `context` where
present), followed by the fresh keys of `context` in order. -/
def mergeContext (ds ctx : List (String × JValue)) : List (String × JValue) :=
  ds.map (fun p => (p.1, (ctx.lookup p.1).getD p.2)) ++
  ctx.filter (fun p => (ds.lookup p.1).isNone)

/-- Would `new Function` accept this string as a parameter name?
(identifier syntax — here including `$` — and not a reserved word). -/
def validParamName (s : String) : Bool :=
  headSat (fun c => isAlphaC c ∨ c = '_' ∨ c = '$') s.toList ∧
  s.toList.all (fun c => isWordChar c ∨ c = '$') ∧
  ¬ reservedWords.contains s ∧
  ¬ (s = "true" ∨ s = "false" ∨ s = "null" ∨ s = "this")

/-- The test `/^[\d\w\s+\-*/.(),%]+$/.test(expression)` (non-empty and
every character allow-listed); `secureEval` rejects when it is `false`. -/
def exprCharsOk (l : List Char) : Bool :=
  ¬ l.isEmpty ∧ l.all allowedExprChar

/-- `secureEval` (examples/03-eval-alternatives/secure.js, lines 16-84).

`g` is the ambient global environment the compiled function closes over
(the ECMA-262 `Function`-constructor semantics; see `lookupVar`).  The
model assumes the association lists carry distinct keys, as JavaScript
objects do.  `none` means the run left the modelled fragment (never the
case on the guard-rejection paths, which return before compilation). -/
def secureEval (g : List (String × JValue)) (expression : String)
    (context : List (String × JValue)) : Option EvaluationResult :=
  let l := expression.toList
  if exprCharsOk l then
    match dangerousKeywords.find? (fun k => hasSubCS k.toList l) with
    | some k =>
      some {success := false, value := .jnull,
            error := some ("Dangerous keyword detected: " ++ k)}
    | none =>
      let safeContext := mergeContext defaultContextEntries context
      if ¬ safeContext.all (fun p => validParamName p.1) then
        some {success := false, value := .jnull,
              error := some "Expression evaluation failed"}
      else
        match parseExpression l with
        | .error .unmod => none
        | .error .syn =>
          some {success := false, value := .jnull,
                error := some "Expression evaluation failed"}
        | .ok ast =>
          match evalE safeContext g (8 * l.length + 16) ast with
          | .unmod => none
          | .thrown =>
            some {success := false, value := .jnull,
                  error := some "Expression evaluation failed"}
          | .ok v =>
            if typeofJS v = "function" then
              some {success := false, value := .jnull,
                    error := some "Expression cannot evaluate to a function"}
            else some {success := true, value := v, error := none}
  else
    some {success := false, value := .jnull,
          error := some "Expression contains disallowed characters"}

/-! ### `safeCalculator` -/

/-- The result object of `safeCalculator`. -/
structure CalcResult where
  error : Option String
  result : Option JValue

/-- The calculator character allow-list `/^[\d\s+\-*/().]+$/`. -/
def calcChar (c : Char) : Bool :=
  isDigitC c ∨ isSpaceJS c ∨ c = '+' ∨ c = '-' ∨ c = '*' ∨ c = '/' ∨
  c = '(' ∨ c = ')' ∨ c = '.'

/-- `/^[\d\s+\-*/().]+$/.test(expression)`. -/
def calcCharsOk (l : List Char) : Bool :=
  ¬ l.isEmpty ∧ l.all calcChar

/-- The parenthesis-balance loop of `safeCalculator`: `false` iff the
running count ever goes negative or does not end at zero. -/
def parenScan : List Char → Int → Bool
  | [], k => k = 0
  | c :: cs, k =>
    if c = '(' then parenScan cs (k + 1)
    else if c = ')' then (k > 0 ∧ parenScan cs (k - 1)) else parenScan cs k

/-- The lookahead of `/\/\s*0(?!\d)/` after a `/`. -/
def divZeroAt (cs : List Char) : Bool :=
  let r := cs.dropWhile isSpaceJS
  headSat (fun c => c = '0') r ∧ ¬ headSat isDigitC r.tail

/-- `/\/\s*0(?!\d)/.test(expression)`. -/
def divZeroScan : List Char → Bool
  | [] => false
  | c :: cs => (c = '/' ∧ divZeroAt cs) ∨ divZeroScan cs

/-- `Number.isFinite`. -/
def numIsFiniteJ : JValue → Bool
  | .num q => jIsFinite q
  | _ => false

/-- `safeCalculator` (examples/03-eval-alternatives/secure.js, lines
225-268).  The compiled function has no parameters, and the calculator
character gate admits no identifier characters, so the ambient global
environment is irrelevant; the model evaluates under empty scopes. -/
def safeCalculator (expression : String) : Option CalcResult :=
  let l := expression.toList
  if ¬ calcCharsOk l then
    some {error := some "Invalid mathematical expression", result := none}
  else if ¬ parenScan l 0 then
    some {error := some "Unbalanced parentheses", result := none}
  else if divZeroScan l then
    some {error := some "Division by zero", result := none}
  else
    match parseExpression l with
    | .error .unmod => none
    | .error .syn => some {error := some "Calculation failed", result := none}
    | .ok ast =>
      match evalE [] [] (8 * l.length + 16) ast with
      | .unmod => none
      | .thrown => some {error := some "Calculation failed", result := none}
      | .ok v =>
        if ¬ numIsFiniteJ v then
          some {error := some "Result is not a finite number", result := none}
        else some {error := none, result := some v}

/-! ### `getNestedProperty` and `safeJSONPath` -/

/-- The per-segment identifier check `/^[a-zA-Z_][a-zA-Z0-9_]*$/`. -/
def identRegexOk (s : String) : Bool :=
  headSat identStart s.toList ∧ s.toList.all isWordChar

/-- The splitting loop of `String.prototype.split` with a one-character
separator (e.g. `path.split('.')`): note `"".split('.')` is `[""]` and
consecutive separators produce empty segments. -/
def splitOnCharGo (sep : Char) : List Char → List Char → List String
  | [], acc => [acc.reverse.asString]
  | c :: cs, acc =>
    if c = sep then acc.reverse.asString :: splitOnCharGo sep cs []
    else splitOnCharGo sep cs (c :: acc)

/-- `String.prototype.split` with a one-character separator. -/
def splitOnChar (sep : Char) (s : String) : List String :=
  splitOnCharGo sep s.toList []

/-- `String.prototype.trim` (on the modelled ASCII whitespace). -/
def trimJS (l : List Char) : List Char :=
  ((l.dropWhile isSpaceJS).reverse.dropWhile isSpaceJS).reverse

/-- `w` is a prefix of `s` (string view). -/
def startsWithS (s w : String) : Bool := w.toList.isPrefixOf s.toList

/-- JavaScript falsiness. -/
def falsyJS (v : JValue) : Bool := ¬ truthyJS v

/-- The traversal loop of `getNestedProperty`: for each part, the identifier
regex, then `current && typeof current === 'object' && part in current`.
`none` = the walk reached an unmodelled host object. -/
def getNestedPropertyGo : JValue → List String → Option JValue
  | current, [] => some current
  | current, part :: rest =>
    if ¬ identRegexOk part then some .undef
    else if truthyJS current ∧ typeofJS current = "object" then
      match hasPropJS current part with
      | none => none
      | some false => some .undef
      | some true =>
        match getPropJS current part with
        | none => none
        | some v => getNestedPropertyGo v rest
    else some (.undef : JValue)

/-- `getNestedProperty` (examples/03-eval-alternatives/secure.js, lines
122-144).  `some JValue.undef` is the source's `undefined` result. -/
def getNestedProperty (obj : JValue) (path : String) : Option JValue :=
  if falsyJS obj then some .undef
  else getNestedPropertyGo obj (splitOnChar '.' path)

/-- The result object of `safeJSONPath`. -/
structure JSONPathResult where
  success : Bool
  value : JValue
  error : Option String

/-- A single-quote as a string (used by the source's error messages). -/
def aposS : String := String.singleton aposC

/-- `/^\d+$/`. -/
def allDigits (s : String) : Bool := ¬ s.toList.isEmpty ∧ s.toList.all isDigitC

/-- `parseInt(part, 10)` on an all-digit string. -/
def digitsNat (s : String) : Nat :=
  s.toList.foldl (fun a c => a * 10 + (c.toNat - '0'.toNat)) 0

/-- The traversal loop of `safeJSONPath`. -/
def safeJSONPathGo : JValue → List String → Option JSONPathResult
  | current, [] => some {success := true, value := current, error := none}
  | current, part :: rest =>
    if allDigits part then
      let index := digitsNat part
      match current with
      | .arr elems =>
        if index < elems.length then safeJSONPathGo (elems.getD index .undef) rest
        else some {success := false, value := .jnull,
                   error := some ("Array index " ++ toString index ++ " out of bounds")}
      | _ =>
        some {success := false, value := .jnull,
              error := some ("Array index " ++ toString index ++ " out of bounds")}
    else if identRegexOk part then
      if truthyJS current ∧ typeofJS current = "object" then
        match hasPropJS current part with
        | none => none
        | some false =>
          some {success := false, value := .jnull,
                error := some ("Property " ++ aposS ++ part ++ aposS ++ " not found")}
        | some true =>
          match getPropJS current part with
          | none => none
          | some v => safeJSONPathGo v rest
      else
        some {success := false, value := .jnull,
              error := some ("Property " ++ aposS ++ part ++ aposS ++ " not found")}
    else
      some {success := false, value := .jnull,
            error := some ("Invalid path component: " ++ part)}

/-- `safeJSONPath` (examples/03-eval-alternatives/secure.js, lines
152-218). -/
def safeJSONPath (data : JValue) (path : String) : Option JSONPathResult :=
  if falsyJS data ∨ typeofJS data ≠ "object" then
    some {success := false, value := .jnull, error := some "Data must be an object"}
  else
    let cleanPath : List Char :=
      match path.toList with
      | '$' :: '.' :: r => r
      | '$' :: r => r
      | r => r
    if cleanPath.isEmpty then some {success := true, value := data, error := none}
    else safeJSONPathGo data (splitOnCharGo '.' cleanPath [])

/-! ### `removePrototypePollution` and `safeJSONParse` -/

mutual

/-- `removePrototypePollution` (examples/03-eval-alternatives/secure.js,
lines 505-525; the version at examples/02-xss-prevention/test.js lines
966-985 has the same behavior): non-objects pass through, arrays map
element-wise, and objects keep only their own enumerable keys different
from `__proto__`, `constructor` and `prototype`, recursively cleaned.
An opaque host object has no own enumerable keys, so its `for...in` loop
produces the empty object. -/
def removePrototypePollution : JValue → JValue
  | .obj fields => .obj (rppFields fields)
  | .arr elems => .arr (rppList elems)
  | .hostObj _ => .obj []
  | v => v

/-- The `for...in` loop of `removePrototypePollution` over an object's own
enumerable keys. -/
def rppFields : List (String × JValue) → List (String × JValue)
  | [] => []
  | (k, v) :: rest =>
    if k = "__proto__" ∨ k = "constructor" ∨ k = "prototype" then rppFields rest
    else (k, removePrototypePollution v) :: rppFields rest

/-- Element-wise cleaning of an array. -/
def rppList : List JValue → List JValue
  | [] => []
  | v :: rest => removePrototypePollution v :: rppList rest

end

/-- The result object of `safeJSONParse`. -/
structure JSONParseResult where
  success : Bool
  data : JValue
  error : Option String

/-- The pre-parse guard of `safeJSONParse`:
`includes('__proto__') || includes('constructor') || includes('prototype')`. -/
def pollutionSub (l : List Char) : Bool :=
  hasSubCS "__proto__".toList l || hasSubCS "constructor".toList l ||
  hasSubCS "prototype".toList l

/-- `safeJSONParse` (examples/02-xss-prevention/test.js, lines 925-959).
`JSON.parse` is passed as a parameter (`none` modelling a parse that
throws): every claim about this function concerns the substring guard,
which runs before any parsing. -/
def safeJSONParse (jsonParse : String → Option JValue) (jsonString : String) :
    JSONParseResult :=
  if pollutionSub jsonString.toList then
    {success := false, data := .jnull,
     error := some "Potentially dangerous JSON content detected"}
  else
    match jsonParse jsonString with
    | some parsed =>
      {success := true, data := removePrototypePollution parsed, error := none}
    | none => {success := false, data := .jnull, error := some "Invalid JSON format"}

/-! ### `validateURL` -/

/-- The components of a parsed URL that `validateURL` inspects. -/
structure URLParts where
  protocol : String
  hostname : String
  href : String

/-- A scheme character after the first (`[A-Za-z0-9+.-]`). -/
def schemeChar (c : Char) : Bool :=
  isAlphaC c ∨ isDigitC c ∨ c = '+' ∨ c = '-' ∨ c = '.'

/-- Model of the WHATWG `new URL(url)` constructor for absolute URLs,
restricted to what `validateURL` consumes: the lower-cased `protocol`
(scheme plus `:`), the lower-cased `hostname`, and a serialized `href`.
Simplifications (none load-bearing for the theorems below, which either
quantify over the parse result or use URLs in the common
`scheme://host/path` shape): userinfo is dropped at the last `@`; ports are
kept verbatim in `href` (no default-port elision); IDNA, percent-encoding
normalization and IPv4-numeric canonicalization are not applied; a special
scheme without `//` is treated as opaque. -/
def parseURLM (u : String) : Option URLParts :=
  let l := u.toList
  if ¬ headSat isAlphaC l then none
  else
    let scheme := l.takeWhile schemeChar
    match l.drop scheme.length with
    | ':' :: rest =>
      let proto := (scheme.map lowerC).asString ++ ":"
      match rest with
      | '/' :: '/' :: rest2 =>
        let authority := rest2.takeWhile (fun c => ¬ (c = '/' ∨ c = '?' ∨ c = '#'))
        let pathPart := rest2.drop authority.length
        let afterUser :=
          if authority.contains '@' then (authority.reverse.takeWhile (fun c => c ≠ '@')).reverse
          else authority
        let hostPort : List Char × List Char :=
          match afterUser with
          | '[' :: hb =>
            let inside := hb.takeWhile (fun c => c ≠ ']')
            (match hb.drop inside.length with
             | ']' :: pr => ('[' :: (inside ++ [']']), pr)
             | _ => ([], []))
          | _ => (afterUser.takeWhile (fun c => c ≠ ':'), afterUser.dropWhile (fun c => c ≠ ':'))
        if hostPort.1.isEmpty then none
        else
          let host := (hostPort.1.map lowerC).asString
          some {protocol := proto, hostname := host,
                href := proto ++ "//" ++ host ++ hostPort.2.asString ++
                        (if pathPart.isEmpty then "/" else pathPart.asString)}
      | _ => some {protocol := proto, hostname := "", href := proto ++ rest.asString}
    | _ => none

/-- The default `allowedProtocols` of `validateURL`. -/
def defaultAllowedProtocols : List String := ["http:", "https:", "mailto:"]

/-- The result object of `validateURL`. -/
structure URLValidationResult where
  isValid : Bool
  sanitizedURL : String
  errors : List String

/-- The `dangerousPatterns` loop of `validateURL`: the five case-insensitive
scheme substrings, tested anywhere in the URL. -/
def dangerousURLPat (ul : List Char) : Bool :=
  containsCI "javascript:".toList ul || containsCI "vbscript:".toList ul ||
  containsCI "data:".toList ul || containsCI "file:".toList ul ||
  containsCI "ftp:".toList ul

/-- The private/local-host rejection of `validateURL` (`localhost`, and the
prefixes `127.`, `192.168.`, `10.`). -/
def privateHostCheck (hostname : String) : Bool :=
  hostname = "localhost" ∨ startsWithS hostname "127." ∨
  startsWithS hostname "192.168." ∨ startsWithS hostname "10."

/-- `validateURL` (examples/02-xss-prevention/test.js, lines 803-859):
trim, the case-insensitive dangerous-substring patterns (anywhere in the
URL), `new URL`, the protocol allow-list, and the four private-host
checks. -/
def validateURL (url : String) (allowedProtocols : List String) : URLValidationResult :=
  let ul := trimJS url.toList
  let u := ul.asString
  if dangerousURLPat ul then
    {isValid := false, sanitizedURL := "", errors := ["Dangerous URL protocol detected"]}
  else
    match parseURLM u with
    | none => {isValid := false, sanitizedURL := "", errors := ["Invalid URL format"]}
    | some p =>
      if ¬ allowedProtocols.contains p.protocol then
        {isValid := false, sanitizedURL := "",
         errors := ["Protocol " ++ p.protocol ++ " not allowed"]}
      else if privateHostCheck p.hostname then
        {isValid := false, sanitizedURL := "", errors := ["Private/local URLs not allowed"]}
      else {isValid := true, sanitizedURL := p.href, errors := []}

/-- Is this string a dotted-quad IPv4 address in one of the RFC 1918
private ranges (`10/8`, `172.16/12`, `192.168/16`)?  This is the
specification-side reading of "private-range host" used to assess the
URL-validation claim; it is not part of the source. -/
def privateRangeIPv4 (host : String) : Bool :=
  let ps := splitOnChar '.' host
  ps.length = 4 ∧ ps.all (fun s => allDigits s ∧ digitsNat s ≤ 255) ∧
  (let a := digitsNat (ps.getD 0 "")
   let b := digitsNat (ps.getD 1 "")
   a = 10 ∨ (a = 172 ∧ 16 ≤ b ∧ b ≤ 31) ∨ (a = 192 ∧ b = 168))

/-! ## Claim-level auxiliary definitions -/

/-- The banned tokens named by the evaluator claim (a subset of the
source's `dangerousKeywords`). -/
def claimBannedTokens : List String :=
  ["eval", "Function", "constructor", "__proto__", "process", "window", "document"]

mutual

/-- Is every identifier occurring in the expression among `keys`?
(Fuel-matched to `evalE`; conservatively `false` on exhaustion.) -/
def identsCovered (keys : List String) : Nat → JsExpr → Bool
  | 0, _ => false
  | _ + 1, .lit _ => true
  | _ + 1, .boolLit _ => true
  | _ + 1, .nullLit => true
  | _ + 1, .thisLit => true
  | _ + 1, .ident x => keys.contains x
  | n + 1, .member e _ => identsCovered keys n e
  | n + 1, .call f args => identsCovered keys n f && identsCoveredArgs keys n args
  | n + 1, .unop _ e => identsCovered keys n e
  | n + 1, .binop _ a b => identsCovered keys n a && identsCovered keys n b
  | n + 1, .seqE a b => identsCovered keys n a && identsCovered keys n b

/-- `identsCovered` over an argument list. -/
def identsCoveredArgs (keys : List String) : Nat → List JsExpr → Bool
  | 0, _ => false
  | _ + 1, [] => true
  | n + 1, e :: es => identsCovered keys n e && identsCoveredArgs keys n es

end

/-- Does the sandbox (the merged `safeContext`) bind every identifier the
expression mentions?  (Trivially `true` when the expression does not reach
execution, where the two runs coincide for structural reasons.) -/
def contextCovers (expression : String) (context : List (String × JValue)) : Bool :=
  match parseExpression expression.toList with
  | .ok ast =>
    identsCovered ((mergeContext defaultContextEntries context).map Prod.fst)
      (8 * expression.toList.length + 16) ast
  | .error _ => true

/-- The ambient-independent expression shapes: literals, identifiers and
operator structure only — no member access and no calls.  Evaluation of
such an expression never walks a prototype chain, never invokes a
context-supplied capability, and any implicit conversion of an
object-valued operand leaves the modelled fragment (so a modelled result
never depends on mutable ambient prototypes).  Fuel-matched to `evalE`,
conservatively `false` on exhaustion. -/
def plainArith : Nat → JsExpr → Bool
  | 0, _ => false
  | _ + 1, .lit _ => true
  | _ + 1, .boolLit _ => true
  | _ + 1, .nullLit => true
  | _ + 1, .thisLit => true
  | _ + 1, .ident _ => true
  | _ + 1, .member _ _ => false
  | _ + 1, .call _ _ => false
  | n + 1, .unop _ e => plainArith n e
  | n + 1, .binop _ a b => plainArith n a && plainArith n b
  | n + 1, .seqE a b => plainArith n a && plainArith n b

/-- The honestly isolated evaluator inputs: the expression parses inside
the modelled fragment, every identifier it mentions is bound by the
caller's own context entries (not merely by the default
`Math`/`parseInt`/`parseFloat`/`Number` entries, which the source reads
from the ambient environment at call time), and the expression stays in
the member-access- and call-free fragment `plainArith`. -/
def isolatedExprOk (expression : String) (context : List (String × JValue)) : Bool :=
  match parseExpression expression.toList with
  | .ok ast =>
    identsCovered (context.map Prod.fst) (8 * expression.toList.length + 16) ast &&
    plainArith (8 * expression.toList.length + 16) ast
  | .error _ => false

mutual

/-- Pure parsed data: scalars, plain objects and arrays only (no host
objects or functions) — the shape structured-data parsing produces. -/
def pureData : JValue → Bool
  | .obj fields => pureFields fields
  | .arr elems => pureElems elems
  | .hostObj _ => false
  | .hostFn _ => false
  | _ => true

/-- `pureData` over object fields. -/
def pureFields : List (String × JValue) → Bool
  | [] => true
  | (_, v) :: rest => pureData v && pureFields rest

/-- `pureData` over array elements. -/
def pureElems : List JValue → Bool
  | [] => true
  | v :: rest => pureData v && pureElems rest

end

/-- The values nested-property traversal can reach from pure data: pure
data itself, the two built-in prototype objects, and host functions. -/
def traversable (v : JValue) : Prop :=
  pureData v = true ∨ v = .hostObj "Object.prototype" ∨
  v = .hostObj "Array.prototype" ∨ (∃ n, v = .hostFn n)

mutual

/-- No mapping node of the value graph, at any depth, carries a key equal
to `__proto__`, `constructor` or `prototype`. -/
def noBadKeys : JValue → Bool
  | .obj fields => noBadKeysFields fields
  | .arr elems => noBadKeysElems elems
  | _ => true

/-- `noBadKeys` over object fields. -/
def noBadKeysFields : List (String × JValue) → Bool
  | [] => true
  | (k, v) :: rest =>
    (¬ (k = "__proto__" ∨ k = "constructor" ∨ k = "prototype")) &&
    noBadKeys v && noBadKeysFields rest

/-- `noBadKeys` over array elements. -/
def noBadKeysElems : List JValue → Bool
  | [] => true
  | v :: rest => noBadKeys v && noBadKeysElems rest

end

/-- The eight characters the final `escapeHTML` pass entity-encodes. -/
def escChar (c : Char) : Bool :=
  c = '&' ∨ c = '<' ∨ c = '>' ∨ c = quoteC ∨ c = aposC ∨ c = '/' ∨
  c = backtickC ∨ c = '='

/-- The three scheme-neutralization passes in source order. -/
def neutralizeSchemes (l : List Char) : List Char :=
  replaceScheme "vbscript".toList
    (replaceScheme "data".toList (replaceScheme "javascript".toList l))

/-- No match of the pattern starts at any position of `l` (the universally
quantified form of `hasM = false`, convenient for induction). -/
def noMatchAll {σ : Type} (P : PatFam σ) (st : σ) (l : List Char) : Prop :=
  ∀ i, matchFrom P st (l.drop i) = none

/-- The states reachable by the `/word\s*:/i` pattern: a non-empty suffix of
the word, or the pre-colon whitespace state. -/
def schemeInv (w : List Char) : SchemeSt → Prop
  | .word v => v ≠ [] ∧ v <:+ w
  | .colonSp => True

/-- The states reachable by a case-insensitive literal pattern: a non-empty
suffix of the word. -/
def litInv (w : List Char) : LitSt → Prop
  | .word v => v ≠ [] ∧ v <:+ w

/-! ## Helper lemmas -/

/-- A key occurring in the key list of an association list can be looked
up. -/
theorem lookup_isSome_of_key_mem {β : Type} (l : List (String × β)) (x : String)
    (h : x ∈ l.map Prod.fst) : ∃ v, l.lookup x = some v := by
  induction l with
  | nil => simp at h
  | cons p rest ih =>
    by_cases hx : x = p.1
    · exact ⟨p.2, by simp [List.lookup, hx]⟩
    · have hrest : x ∈ rest.map Prod.fst := by
        simp only [List.map_cons, List.mem_cons] at h
        exact h.resolve_left hx
      obtain ⟨v, hv⟩ := ih hrest
      have hx' : (x == p.1) = false := by simp [hx]
      exact ⟨v, by simp [List.lookup, hx', hv]⟩

/-! ## C10 -/

/-- C10 (confirmed): `safeJSONParse` rejects, before attempting any parse,
every input containing `__proto__`, `constructor` or `prototype` anywhere
as a raw-text substring — regardless of where in the JSON the substring
occurs — returning `success = false`, no data, and a populated error. -/
theorem safeJSONParse_rejects_by_substring
    (jsonParse : String → Option JValue) (s : String)
    (h : pollutionSub s.toList = true) :
    safeJSONParse jsonParse s =
      {success := false, data := .jnull,
       error := some "Potentially dangerous JSON content detected"} := by
  simp only [String.toList] at h
  simp [safeJSONParse, h]

/-- Witness for C10: the harmless JSON text `{"word": "prototype"}`
contains `prototype` only inside a string value, yet is rejected. -/
theorem safeJSONParse_rejects_by_substring_witness :
    pollutionSub "\x7b\"word\": \"prototype\"\x7d".toList = true ∧
    safeJSONParse (fun _ => none) "\x7b\"word\": \"prototype\"\x7d" =
      {success := false, data := .jnull,
       error := some "Potentially dangerous JSON content detected"} :=
  ⟨by decide, safeJSONParse_rejects_by_substring (fun _ => none) _ (by decide)⟩

/-! ## C5 -/

/-- C5 (confirmed): for every expression containing one of the claim's
banned tokens (`eval`, `Function`, `constructor`, `__proto__`, `process`,
`window`, `document`) as a substring, `secureEval` returns `success =
false` with a populated error (either the character gate or the keyword
blocklist fires first), and never executes the expression: the result does
not depend on the ambient global environment. -/
theorem secureEval_rejects_banned_tokens
    (g g' : List (String × JValue)) (expression : String)
    (context : List (String × JValue))
    (h : ∃ k ∈ claimBannedTokens, hasSubCS k.toList expression.toList = true) :
    (∃ msg, secureEval g expression context =
      some {success := false, value := .jnull, error := some msg}) ∧
    secureEval g' expression context = secureEval g expression context := by
  obtain ⟨k, hk, hsub⟩ := h
  have hk' : k ∈ dangerousKeywords := by fin_cases hk <;> decide
  have hfind : (dangerousKeywords.find?
      (fun kk => hasSubCS kk.toList expression.toList)).isSome := by
    rw [List.find?_isSome]
    exact ⟨k, hk', hsub⟩
  by_cases hgate : exprCharsOk expression.toList = true
  · obtain ⟨k0, hk0⟩ := Option.isSome_iff_exists.mp hfind
    simp only [String.toList] at hgate hk0
    refine ⟨⟨"Dangerous keyword detected: " ++ k0, ?_⟩, ?_⟩ <;>
      simp [secureEval, hgate, hk0]
  · rw [Bool.not_eq_true] at hgate
    simp only [String.toList] at hgate
    refine ⟨⟨"Expression contains disallowed characters", ?_⟩, ?_⟩ <;>
      simp [secureEval, hgate]

/-- Witness for C5 at the expression `eval(1)`. -/
theorem secureEval_rejects_banned_tokens_witness :
    (∃ msg, secureEval [] "eval(1)" [] =
      some {success := false, value := .jnull, error := some msg}) ∧
    secureEval [("y", JValue.num (.fin 7 1))] "eval(1)" [] =
      secureEval [] "eval(1)" [] :=
  secureEval_rejects_banned_tokens [] [("y", JValue.num (.fin 7 1))] "eval(1)" []
    ⟨"eval", by decide, by decide⟩

/-! ## C9 -/

/-- C9 counterexample: with the binding `a = null`, the expression `a`
evaluates successfully and `secureEval` returns `success = true` with
`value` equal to `null` — contradicting the claim that a successful result
always carries a populated (non-null) value. -/
theorem secureEval_success_with_null_value :
    secureEval [] "a" [("a", JValue.jnull)] =
      some {success := true, value := .jnull, error := none} := rfl

/-- C9 (corrected): the invariant that actually holds relates `success`
only to `error`: on success the error is `null`; on failure the error is
populated and `value` stays `null`.  A successful `value` may itself be
`null`/`undefined` when the expression evaluates to that. -/
theorem evaluationResult_invariant_amended
    (g : List (String × JValue)) (expression : String)
    (context : List (String × JValue)) (r : EvaluationResult)
    (h : secureEval g expression context = some r) :
    (r.success = true → r.error = none) ∧
    (r.success = false → r.value = .jnull ∧ r.error.isSome = true) := by
  simp only [secureEval] at h
  repeat' split at h
  all_goals cases h
  all_goals exact ⟨fun hs => by simp_all, fun hs => by simp_all⟩

/-- Witness for C9's amended invariant at `1 + 1`. -/
theorem evaluationResult_invariant_amended_witness :
    secureEval [] "1+1" [] =
      some {success := true, value := .num (.fin 2 1), error := none} ∧
    ((true = true → (none : Option String) = none) ∧
     (true = false → JValue.num (.fin 2 1) = .jnull ∧
        (none : Option String).isSome = true)) :=
  ⟨rfl, evaluationResult_invariant_amended [] "1+1" [] _ rfl⟩

/-- Only finite numbers satisfy `Number.isFinite`. -/
theorem numIsFiniteJ_shape (v : JValue) (h : numIsFiniteJ v = true) :
    ∃ n d, v = JValue.num (JNum.fin n d) := by
  cases v with
  | num q =>
    cases q with
    | fin n d => exact ⟨n, d, rfl⟩
    | nan => simp [numIsFiniteJ, jIsFinite] at h
    | inf => simp [numIsFiniteJ, jIsFinite] at h
    | ninf => simp [numIsFiniteJ, jIsFinite] at h
  | undef => simp [numIsFiniteJ] at h
  | jnull => simp [numIsFiniteJ] at h
  | bool b => simp [numIsFiniteJ] at h
  | str t => simp [numIsFiniteJ] at h
  | obj fs => simp [numIsFiniteJ] at h
  | arr es => simp [numIsFiniteJ] at h
  | hostObj n => simp [numIsFiniteJ] at h
  | hostFn n => simp [numIsFiniteJ] at h

/-! ## C6 -/

/-- C6 counterexample: `secureEval` has no finiteness check — `1/0`
evaluates to `Infinity` and is returned with `success = true`, not
rejected. -/
theorem secureEval_returns_infinity :
    secureEval [] "1/0" [] =
      some {success := true, value := .num .inf, error := none} := rfl

/-- C6 (corrected): the finiteness rejection belongs to the calculator
variant only: `safeCalculator` never returns a result unless it is a finite
number (a non-finite evaluation yields the distinct error
`Result is not a finite number`, as at `1/(2-2)`), while `secureEval`
returns non-finite numbers with `success = true`. -/
theorem safeCalculator_only_finite_results :
    (∀ e r v, safeCalculator e = some r → r.result = some v →
      r.error = none ∧ ∃ n d, v = JValue.num (JNum.fin n d)) ∧
    safeCalculator "1/(2-2)" =
      some {error := some "Result is not a finite number", result := none} := by
  refine ⟨?_, rfl⟩
  intro e r v h hr
  simp only [safeCalculator] at h
  repeat' split at h
  all_goals cases h
  all_goals simp_all
  all_goals
    next hfin =>
      exact numIsFiniteJ_shape _ (by revert hfin; simp)

/-- Witness for C6's amended claim at `2+3`. -/
theorem safeCalculator_only_finite_results_witness :
    safeCalculator "2+3" = some {error := none, result := some (.num (.fin 5 1))} ∧
    ((none : Option String) = none ∧
     ∃ n d, JValue.num (JNum.fin 5 1) = JValue.num (JNum.fin n d)) :=
  ⟨rfl, safeCalculator_only_finite_results.1 "2+3" _ _ rfl rfl⟩

/-! ## C2 counterexample -/

/-- C2 counterexample: a `new Function`-compiled body closes over the
global scope, so the same expression with the same (empty) context bindings
yields different results under different ambient globals: with a global
`x = 1` versus `x = 2`, `secureEval(..., "x", {})` returns 1 versus 2. -/
theorem secureEval_global_dependence :
    secureEval [("x", JValue.num (.fin 1 1))] "x" [] =
      some {success := true, value := .num (.fin 1 1), error := none} ∧
    secureEval [("x", JValue.num (.fin 2 1))] "x" [] =
      some {success := true, value := .num (.fin 2 1), error := none} ∧
    secureEval [("x", JValue.num (.fin 1 1))] "x" [] ≠
      secureEval [("x", JValue.num (.fin 2 1))] "x" [] := by
  refine ⟨rfl, rfl, ?_⟩
  intro heq
  have h1 : secureEval [("x", JValue.num (.fin 1 1))] "x" [] =
      some {success := true, value := .num (.fin 1 1), error := none} := rfl
  have h2 : secureEval [("x", JValue.num (.fin 2 1))] "x" [] =
      some {success := true, value := .num (.fin 2 1), error := none} := rfl
  rw [h1, h2] at heq
  simp at heq

/-! ## C2 amended -/

/-- The evaluation of a compiled body does not depend on the ambient global
environment as long as every identifier it mentions is bound by the
parameters (fuel-indexed, mirroring `evalE`). -/
theorem evalE_env_agnostic (params g1 g2 : List (String × JValue)) :
    ∀ fuel,
      (∀ e, identsCovered (params.map Prod.fst) fuel e = true →
        evalE params g1 fuel e = evalE params g2 fuel e) ∧
      (∀ es, identsCoveredArgs (params.map Prod.fst) fuel es = true →
        evalE.evalArgs params g1 fuel es = evalE.evalArgs params g2 fuel es) := by
  intro fuel
  induction fuel with
  | zero => exact ⟨fun e _ => rfl, fun es _ => rfl⟩
  | succ n ih =>
    refine ⟨fun e he => ?_, fun es hes => ?_⟩
    · cases e with
      | lit q => rfl
      | boolLit b => rfl
      | nullLit => rfl
      | thisLit => rfl
      | ident x =>
        simp only [identsCovered] at he
        obtain ⟨v, hv⟩ := lookup_isSome_of_key_mem params x (by simpa using he)
        simp [evalE, lookupVar, hv]
      | member e f =>
        simp only [identsCovered] at he
        simp only [evalE]
        rw [ih.1 e he]
      | call f args =>
        simp only [identsCovered, Bool.and_eq_true] at he
        simp only [evalE]
        rw [ih.1 f he.1, ih.2 args he.2]
      | unop ng e =>
        simp only [identsCovered] at he
        simp only [evalE]
        rw [ih.1 e he]
      | binop op a b =>
        simp only [identsCovered, Bool.and_eq_true] at he
        simp only [evalE]
        rw [ih.1 a he.1, ih.1 b he.2]
      | seqE a b =>
        simp only [identsCovered, Bool.and_eq_true] at he
        simp only [evalE]
        rw [ih.1 a he.1, ih.1 b he.2]
    · cases es with
      | nil => rfl
      | cons e es =>
        simp only [identsCoveredArgs, Bool.and_eq_true] at hes
        simp only [evalE.evalArgs]
        rw [ih.1 e hes.1, ih.2 es hes.2]

/-- A successful lookup means the key occurs in the key list. -/
theorem key_mem_of_lookup_eq_some {β : Type} :
    ∀ (l : List (String × β)) (x : String) (v : β),
      l.lookup x = some v → x ∈ l.map Prod.fst := by
  intro l
  induction l with
  | nil => intro x v h; simp [List.lookup] at h
  | cons p ps ih =>
    intro x v h
    obtain ⟨k, w⟩ := p
    rw [List.lookup] at h
    by_cases hx : (x == k) = true
    · simp only [List.map_cons, List.mem_cons]
      exact Or.inl (by simpa using hx)
    · have hx' : (x == k) = false := by simpa using hx
      rw [hx'] at h
      simp only [List.map_cons, List.mem_cons]
      exact Or.inr (ih x v h)

/-- A key of the caller's context is a key of the merged `safeContext`. -/
theorem mergeContext_keys_sup (ds ctx : List (String × JValue)) (x : String)
    (hx : x ∈ ctx.map Prod.fst) : x ∈ (mergeContext ds ctx).map Prod.fst := by
  obtain ⟨p, hp, hpx⟩ := List.mem_map.mp hx
  simp only [mergeContext, List.map_append, List.mem_append, List.map_map]
  cases hds : ds.lookup x with
  | some v =>
    left
    obtain ⟨q, hq, hqx⟩ := List.mem_map.mp (key_mem_of_lookup_eq_some ds x v hds)
    exact List.mem_map.mpr ⟨q, hq, by simpa using hqx⟩
  | none =>
    right
    refine List.mem_map.mpr ⟨p, List.mem_filter.mpr ⟨hp, ?_⟩, hpx⟩
    rw [hpx, hds]
    rfl

/-- Identifier coverage is monotone in the key list. -/
theorem identsCovered_mono (keys ks : List String)
    (hsub : ∀ x, x ∈ keys → x ∈ ks) :
    ∀ fuel,
      (∀ e, identsCovered keys fuel e = true → identsCovered ks fuel e = true) ∧
      (∀ es, identsCoveredArgs keys fuel es = true →
        identsCoveredArgs ks fuel es = true) := by
  intro fuel
  induction fuel with
  | zero =>
    exact ⟨fun e h => by simp [identsCovered] at h,
           fun es h => by simp [identsCoveredArgs] at h⟩
  | succ n ih =>
    refine ⟨fun e he => ?_, fun es hes => ?_⟩
    · cases e with
      | lit q => rfl
      | boolLit b => rfl
      | nullLit => rfl
      | thisLit => rfl
      | ident x =>
        simp only [identsCovered] at he ⊢
        have := hsub x (by simpa using he)
        simpa using this
      | member e f =>
        simp only [identsCovered] at he ⊢
        exact ih.1 e he
      | call f args =>
        simp only [identsCovered, Bool.and_eq_true] at he ⊢
        exact ⟨ih.1 f he.1, ih.2 args he.2⟩
      | unop ng e =>
        simp only [identsCovered] at he ⊢
        exact ih.1 e he
      | binop op a b =>
        simp only [identsCovered, Bool.and_eq_true] at he ⊢
        exact ⟨ih.1 a he.1, ih.1 b he.2⟩
      | seqE a b =>
        simp only [identsCovered, Bool.and_eq_true] at he ⊢
        exact ⟨ih.1 a he.1, ih.1 b he.2⟩
    · cases es with
      | nil => rfl
      | cons e es =>
        simp only [identsCoveredArgs, Bool.and_eq_true] at hes ⊢
        exact ⟨ih.1 e hes.1, ih.2 es hes.2⟩

/-- C2 (corrected): the compiled expression is *not* cut off from the
ambient environment (see `secureEval_global_dependence`), and even a
covering context can leak ambience through capabilities (a context-bound
function can read globals when called) or through the default
`Math`/`parseInt`/`parseFloat`/`Number` entries, which the source reads
from the ambient environment.  What holds is isolation on the honestly
modelled fragment: when the caller's own context binds only pure data and
covers every identifier of a member-access- and call-free expression, any
modelled result obtained under one ambient global environment is obtained
under every other.  Moreover the character gate admits no `=`, so the
expression grammar cannot contain an assignment that would create a
binding. -/
theorem secureEval_isolation_amended :
    (∀ g1 g2 expression context r,
      pureFields context = true →
      isolatedExprOk expression context = true →
      secureEval g1 expression context = some r →
      secureEval g2 expression context = some r) ∧
    allowedExprChar '=' = false := by
  refine ⟨?_, by decide⟩
  intro g1 g2 expression context r hpure hfrag h1
  have hagree : secureEval g1 expression context = secureEval g2 expression context := by
    simp only [isolatedExprOk, String.toList] at hfrag
    simp only [secureEval, String.toList]
    by_cases hgate : exprCharsOk expression.data = true
    · simp only [hgate, if_true]
      cases hfind : List.find? (fun k => hasSubCS k.data expression.data) dangerousKeywords with
      | some k => simp [hfind]
      | none =>
        simp only [hfind]
        by_cases hparams :
            ((mergeContext defaultContextEntries context).all fun p => validParamName p.1) = true
        · simp only [hparams, if_true]
          cases hparse : parseExpression expression.data with
          | error e => cases e <;> simp [hparse]
          | ok ast =>
            simp only [hparse]
            rw [hparse] at hfrag
            have hfrag2 : (identsCovered (context.map Prod.fst)
                (8 * expression.data.length + 16) ast &&
                plainArith (8 * expression.data.length + 16) ast) = true := hfrag
            rw [Bool.and_eq_true] at hfrag2
            have hcovM : identsCovered
                ((mergeContext defaultContextEntries context).map Prod.fst)
                (8 * expression.data.length + 16) ast = true :=
              (identsCovered_mono _ _
                (fun x hx => mergeContext_keys_sup defaultContextEntries context x hx) _).1
                ast hfrag2.1
            rw [(evalE_env_agnostic (mergeContext defaultContextEntries context) g1 g2
              (8 * expression.data.length + 16)).1 ast hcovM]
        · simp [hparams]
    · simp [hgate]
  rw [← hagree]
  exact h1

/-- Witness for C2's amended claim: with the pure context binding `a = 5`
covering the member-free expression `a`, the modelled result obtained under
a global environment binding `b = 9` is also obtained under the empty
global environment. -/
theorem secureEval_isolation_amended_witness :
    (pureFields [("a", JValue.num (.fin 5 1))] = true ∧
     isolatedExprOk "a" [("a", JValue.num (.fin 5 1))] = true ∧
     secureEval [("b", JValue.num (.fin 9 1))] "a" [("a", JValue.num (.fin 5 1))] =
       some {success := true, value := .num (.fin 5 1), error := none}) ∧
    secureEval [] "a" [("a", JValue.num (.fin 5 1))] =
      some {success := true, value := .num (.fin 5 1), error := none} :=
  ⟨⟨by decide, by decide, rfl⟩,
   secureEval_isolation_amended.1 [("b", JValue.num (.fin 9 1))] [] "a"
     [("a", JValue.num (.fin 5 1))] _ (by decide) (by decide) rfl⟩

/-! ## C8 -/

/-- `rppList` is exactly an element-wise map. -/
theorem rppList_eq_map (es : List JValue) :
    rppList es = es.map removePrototypePollution := by
  induction es with
  | nil => simp [rppList]
  | cons v rest ih => simp [rppList, ih]

/-- C8 (confirmed): `clean_parsed` (= `removePrototypePollution`) yields a
graph with no `__proto__`/`constructor`/`prototype` key on any mapping node
at any depth; sequences are mapped element-wise; scalars (null and
non-objects) pass through unchanged; and the spec's example
`{"__proto__": {"polluted": true}}` cleans to the empty object. -/
theorem clean_parsed_no_bad_keys :
    (∀ v, noBadKeys (removePrototypePollution v) = true) ∧
    (∀ elems, removePrototypePollution (.arr elems) =
      .arr (elems.map removePrototypePollution)) ∧
    (∀ v, v = .jnull ∨ typeofJS v ≠ "object" → removePrototypePollution v = v) ∧
    removePrototypePollution (.obj [("__proto__", .obj [("polluted", .bool true)])]) =
      .obj [] := by
  refine ⟨?_, ?_, ?_, rfl⟩
  · intro v
    refine removePrototypePollution.induct
      (fun v => noBadKeys (removePrototypePollution v) = true)
      (fun es => noBadKeysElems (rppList es) = true)
      (fun fs => noBadKeysFields (rppFields fs) = true)
      ?_ ?_ ?_ ?_ ?_ ?_ ?_ ?_ ?_ v
    · intro fields ih
      simpa [removePrototypePollution, noBadKeys] using ih
    · intro elems ih
      simpa [removePrototypePollution, noBadKeys] using ih
    · intro name
      simp [removePrototypePollution, noBadKeys, noBadKeysFields]
    · intro w hobj harr hhost
      cases w with
      | obj fields => exact absurd rfl (hobj fields)
      | arr elems => exact absurd rfl (harr elems)
      | hostObj name => exact absurd rfl (hhost name)
      | undef => simp [removePrototypePollution, noBadKeys]
      | jnull => simp [removePrototypePollution, noBadKeys]
      | bool b => simp [removePrototypePollution, noBadKeys]
      | num q => simp [removePrototypePollution, noBadKeys]
      | str t => simp [removePrototypePollution, noBadKeys]
      | hostFn name => simp [removePrototypePollution, noBadKeys]
    · simp [rppFields, noBadKeysFields]
    · intro k w rest hbad ih
      simpa [rppFields, hbad] using ih
    · intro k w rest hgood ihv ihrest
      simp [rppFields, hgood, noBadKeysFields, ihv, ihrest]
    · simp [rppList, noBadKeysElems]
    · intro w rest ihv ihrest
      simp [rppList, noBadKeysElems, ihv, ihrest]
  · intro elems
    simp [removePrototypePollution, rppList_eq_map]
  · intro v h
    rcases h with rfl | hne
    · rfl
    · cases v with
      | obj fields => simp [typeofJS] at hne
      | arr elems => simp [typeofJS] at hne
      | hostObj name => simp [typeofJS] at hne
      | undef => rfl
      | jnull => rfl
      | bool b => rfl
      | num q => rfl
      | str t => rfl
      | hostFn name => rfl

/-- Witness for C8 (the scalar pass-through clause has a hypothesis):
strings are scalars and survive cleaning unchanged. -/
theorem clean_parsed_no_bad_keys_witness :
    (JValue.str "x" = .jnull ∨ typeofJS (.str "x") ≠ "object") ∧
    removePrototypePollution (.str "x") = .str "x" :=
  ⟨Or.inr (by decide), clean_parsed_no_bad_keys.2.2.1 (.str "x") (Or.inr (by decide))⟩

/-! ## C7 -/

/-- C7 counterexample: `172.16.0.1` is an RFC 1918 private-range host, yet
`validateURL` accepts it — the code's host deny-list only covers
`localhost`, `127.`, `192.168.` and `10.`. -/
theorem validateURL_accepts_private_range :
    privateRangeIPv4 "172.16.0.1" = true ∧
    validateURL "http://172.16.0.1/" defaultAllowedProtocols =
      {isValid := true, sanitizedURL := "http://172.16.0.1/", errors := []} :=
  ⟨by decide, rfl⟩

/-- C7 (corrected): a URL is accepted only if it survives the dangerous
scheme-substring patterns, parses, has an allow-listed scheme, and has a
host that is not `localhost` and not prefixed `127.`/`192.168.`/`10.`;
other private-range hosts (such as `172.16/12`) are *not* rejected. -/
theorem validateURL_acceptance_conditions (url : String) (ps : List String)
    (h : (validateURL url ps).isValid = true) :
    dangerousURLPat (trimJS url.toList) = false ∧
    ∃ p, parseURLM (trimJS url.toList).asString = some p ∧
      ps.contains p.protocol = true ∧ privateHostCheck p.hostname = false := by
  simp only [validateURL, String.toList] at h
  split at h
  · simp at h
  · next hdang =>
    rw [Bool.not_eq_true] at hdang
    refine ⟨hdang, ?_⟩
    split at h
    · simp at h
    · next p hp =>
      split at h
      · simp at h
      · next hproto =>
        split at h
        · simp at h
        · next hpriv =>
          rw [Bool.not_eq_true] at hpriv
          refine ⟨p, hp, ?_, hpriv⟩
          by_cases hc : ps.contains p.protocol = true
          · exact hc
          · exact absurd (by
              intro hmem
              exact hc (by simpa using hmem)) hproto

/-- Witness for C7's amended claim at `https://example.com`. -/
theorem validateURL_acceptance_conditions_witness :
    (validateURL "https://example.com" defaultAllowedProtocols).isValid = true ∧
    (dangerousURLPat (trimJS "https://example.com".toList) = false ∧
     ∃ p, parseURLM (trimJS "https://example.com".toList).asString = some p ∧
       defaultAllowedProtocols.contains p.protocol = true ∧
       privateHostCheck p.hostname = false) :=
  ⟨rfl, validateURL_acceptance_conditions "https://example.com" defaultAllowedProtocols rfl⟩

/-! ## C3 -/

/-- Values looked up in an all-pure field list are pure. -/
theorem pureFields_lookup (fs : List (String × JValue)) (hp : pureFields fs = true)
    (k : String) (v : JValue) (h : fs.lookup k = some v) : pureData v = true := by
  induction fs with
  | nil => simp [List.lookup] at h
  | cons p rest ih =>
    obtain ⟨k0, v0⟩ := p
    simp only [pureFields, Bool.and_eq_true] at hp
    by_cases hk : (k == k0) = true
    · simp only [List.lookup, hk] at h
      cases h
      exact hp.1
    · rw [Bool.not_eq_true] at hk
      simp only [List.lookup, hk] at h
      exact ih hp.2 h

/-- Members of an all-pure element list are pure. -/
theorem pureElems_mem (es : List JValue) (hp : pureElems es = true)
    (v : JValue) (h : v ∈ es) : pureData v = true := by
  induction es with
  | nil => simp at h
  | cons w rest ih =>
    simp only [pureElems, Bool.and_eq_true] at hp
    rcases List.mem_cons.mp h with rfl | hm
    · exact hp.1
    · exact ih hp.2 hm

/-- An indexed read returns an element of the array. -/
theorem arrIndexGet_mem (es : List JValue) (k : String) (v : JValue)
    (h : arrIndexGet es k = some v) : v ∈ es := by
  unfold arrIndexGet at h
  obtain ⟨i, _, hfi⟩ := List.exists_of_findSome?_eq_some h
  split at hfi
  · exact List.get?_mem hfi
  · cases hfi

/-- One traversal step from a traversable receiver of object type: the `in`
test is always answered, and a positive answer reads a traversable value
(own pure data, a prototype object, `null`, or a host function). -/
theorem traversal_step (v : JValue) (k : String)
    (hv : traversable v) (ht : truthyJS v = true) (hobj : typeofJS v = "object") :
    ∃ b, hasPropJS v k = some b ∧
      (b = true → ∃ w, getPropJS v k = some w ∧ traversable w) := by
  rcases hv with hpure | rfl | rfl | ⟨n, rfl⟩
  · cases v with
    | undef => simp [typeofJS] at hobj
    | jnull => simp [truthyJS] at ht
    | bool b => simp [typeofJS] at hobj
    | num q => simp [typeofJS] at hobj
    | str t => simp [typeofJS] at hobj
    | hostObj nm => simp [pureData] at hpure
    | hostFn nm => simp [typeofJS] at hobj
    | obj fields =>
      refine ⟨_, rfl, fun _ => ⟨objGetProp fields k, rfl, ?_⟩⟩
      unfold objGetProp
      cases hlk : fields.lookup k with
      | some w =>
        exact Or.inl (pureFields_lookup fields (by simpa [pureData] using hpure) k w hlk)
      | none =>
        by_cases hp : k = "__proto__"
        · rw [if_pos hp]
          exact Or.inr (Or.inl rfl)
        · rw [if_neg hp]
          by_cases hm : k ∈ objectProtoKeys
          · rw [if_pos hm]
            unfold objectProtoMember
            by_cases hc : k = "constructor"
            · rw [if_pos hc]
              exact Or.inr (Or.inr (Or.inr ⟨"Object", rfl⟩))
            · rw [if_neg hc]
              exact Or.inr (Or.inr (Or.inr ⟨_, rfl⟩))
          · rw [if_neg hm]
            exact Or.inl (by simp [pureData])
    | arr elems =>
      refine ⟨_, rfl, fun _ => ⟨arrGetProp elems k, rfl, ?_⟩⟩
      unfold arrGetProp
      by_cases hlen : k = "length"
      · rw [if_pos hlen]
        exact Or.inl (by simp [pureData])
      · rw [if_neg hlen]
        cases hidx : arrIndexGet elems k with
        | some w =>
          exact Or.inl (pureElems_mem elems (by simpa [pureData] using hpure) w
            (arrIndexGet_mem elems k w hidx))
        | none =>
          by_cases hp : k = "__proto__"
          · rw [if_pos hp]
            exact Or.inr (Or.inr (Or.inl rfl))
          · rw [if_neg hp]
            by_cases hc : k = "constructor"
            · rw [if_pos hc]
              exact Or.inr (Or.inr (Or.inr ⟨"Array", rfl⟩))
            · rw [if_neg hc]
              by_cases ha : k ∈ arrayProtoOwnKeys
              · rw [if_pos ha]
                exact Or.inr (Or.inr (Or.inr ⟨_, rfl⟩))
              · rw [if_neg ha]
                by_cases hm : k ∈ objectProtoKeys
                · rw [if_pos hm]
                  unfold objectProtoMember
                  rw [if_neg hc]
                  exact Or.inr (Or.inr (Or.inr ⟨_, rfl⟩))
                · rw [if_neg hm]
                  exact Or.inl (by simp [pureData])
  · refine ⟨_, rfl, fun _ => ⟨_, rfl, ?_⟩⟩
    by_cases hp : k = "__proto__"
    · rw [if_pos hp]
      exact Or.inl (by simp [pureData])
    · rw [if_neg hp]
      by_cases hm : k ∈ objectProtoKeys
      · rw [if_pos hm]
        unfold objectProtoMember
        by_cases hc : k = "constructor"
        · rw [if_pos hc]
          exact Or.inr (Or.inr (Or.inr ⟨"Object", rfl⟩))
        · rw [if_neg hc]
          exact Or.inr (Or.inr (Or.inr ⟨_, rfl⟩))
      · rw [if_neg hm]
        exact Or.inl (by simp [pureData])
  · refine ⟨_, rfl, fun _ => ⟨_, rfl, ?_⟩⟩
    by_cases hlen : k = "length"
    · rw [if_pos hlen]
      exact Or.inl (by simp [pureData])
    · rw [if_neg hlen]
      by_cases hc : k = "constructor"
      · rw [if_pos hc]
        exact Or.inr (Or.inr (Or.inr ⟨"Array", rfl⟩))
      · rw [if_neg hc]
        by_cases ha : k ∈ arrayProtoOwnKeys
        · rw [if_pos ha]
          exact Or.inr (Or.inr (Or.inr ⟨_, rfl⟩))
        · rw [if_neg ha]
          by_cases hp : k = "__proto__"
          · rw [if_pos hp]
            exact Or.inr (Or.inl rfl)
          · rw [if_neg hp]
            by_cases hm : k ∈ objectProtoKeys
            · rw [if_pos hm]
              unfold objectProtoMember
              rw [if_neg hc]
              exact Or.inr (Or.inr (Or.inr ⟨_, rfl⟩))
            · rw [if_neg hm]
              exact Or.inl (by simp [pureData])
  · simp [typeofJS] at hobj

/-- From a traversable start, a part list containing a regex-invalid
segment always resolves to `undefined`. -/
theorem getNestedPropertyGo_undef :
    ∀ (parts : List String) (current : JValue), traversable current →
      (∃ part ∈ parts, identRegexOk part = false) →
      getNestedPropertyGo current parts = some .undef := by
  intro parts
  induction parts with
  | nil =>
    rintro current _ ⟨part, hmem, _⟩
    simp at hmem
  | cons part rest ih =>
    rintro current hcur ⟨bad, hbadmem, hbadreg⟩
    by_cases hreg : identRegexOk part = true
    · have hbadrest : bad ∈ rest := by
        rcases List.mem_cons.mp hbadmem with heq | hm
        · rw [heq] at hbadreg
          rw [hbadreg] at hreg
          cases hreg
        · exact hm
      by_cases hguard : truthyJS current = true ∧ typeofJS current = "object"
      · obtain ⟨b, hb, hstep⟩ := traversal_step current part hcur hguard.1 hguard.2
        cases b with
        | false => simp [getNestedPropertyGo, hreg, hguard.1, hguard.2, hb]
        | true =>
          obtain ⟨w, hw, htrav⟩ := hstep rfl
          simp [getNestedPropertyGo, hreg, hguard.1, hguard.2, hb, hw,
            ih w htrav ⟨bad, hbadrest, hbadreg⟩]
      · simp only [getNestedPropertyGo, hreg]
        rw [if_neg (by simp [hreg]), if_neg hguard]
    · rw [Bool.not_eq_true] at hreg
      simp [getNestedPropertyGo, hreg]

/-- C3 counterexample: the three dangerous names are *not* deny-listed by
the resolver — they satisfy the identifier regex and resolve through the
prototype chain: `resolve_path({}, "__proto__")` returns `Object.prototype`
(not not-found), for `getNestedProperty` and `safeJSONPath` alike. -/
theorem getNestedProperty_prototype_reachable :
    getNestedProperty (.obj []) "__proto__" = some (.hostObj "Object.prototype") ∧
    getNestedProperty (.obj []) "__proto__" ≠ some .undef ∧
    safeJSONPath (.obj []) "__proto__" =
      some {success := true, value := .hostObj "Object.prototype", error := none} ∧
    identRegexOk "__proto__" = true := by
  refine ⟨rfl, ?_, rfl, by decide⟩
  have h1 : getNestedProperty (.obj []) "__proto__" =
      some (.hostObj "Object.prototype") := rfl
  rw [h1]
  simp

/-- C3 (corrected): resolution returns `undefined` whenever some segment
fails the identifier regex (for any pure parsed-data root), and the spec's
concrete examples hold — `{user:{name:"Alice"}}` at `user.name` resolves to
`"Alice"`, and `{}` at `__proto__.isAdmin` resolves to `undefined` (because
`isAdmin` is absent on `Object.prototype`, not because `__proto__` is
deny-listed: the three dangerous names are resolvable segments). -/
theorem getNestedProperty_amended :
    (∀ root path, pureData root = true →
      (∃ part ∈ splitOnChar '.' path, identRegexOk part = false) →
      getNestedProperty root path = some .undef) ∧
    getNestedProperty (.obj []) "__proto__.isAdmin" = some .undef ∧
    getNestedProperty (.obj [("user", .obj [("name", .str "Alice")])]) "user.name" =
      some (.str "Alice") := by
  refine ⟨?_, rfl, rfl⟩
  intro root path hroot hbad
  unfold getNestedProperty
  by_cases hf : falsyJS root = true
  · simp [hf]
  · rw [Bool.not_eq_true] at hf
    simp only [hf, Bool.false_eq_true, if_false]
    exact getNestedPropertyGo_undef _ root (Or.inl hroot) hbad

/-- Witness for C3's amended claim: the segment `a-b` fails the identifier
regex, and resolution on the empty object returns `undefined`. -/
theorem getNestedProperty_amended_witness :
    pureData (JValue.obj []) = true ∧
    (∃ part ∈ splitOnChar '.' "a-b", identRegexOk part = false) ∧
    getNestedProperty (.obj []) "a-b" = some .undef :=
  ⟨by decide, ⟨"a-b", by decide, by decide⟩,
   getNestedProperty_amended.1 (.obj []) "a-b" (by decide) ⟨"a-b", by decide, by decide⟩⟩

/-! ## Rewrite-pass metatheory

The source's neutralization passes replace every match of a
backtracking-free pattern with a fixed replacement text.  The lemmas below
establish, generically over such passes: a pass leaves no match of its own
pattern (given that the pattern fails on the replacement text from every
reachable state), it preserves the absence of matches of other such
patterns, and it is the identity on match-free input. -/

/-- Lower-casing cannot produce a character whose code is below `A` (65)
except fixing it; so equality with such a symbol lifts through `lowerC`. -/
theorem lowerC_eq_low_symbol (c t : Char) (htl : t.toNat < 65)
    (h : lowerC c = t) : c = t := by
  unfold lowerC at h
  split at h
  · next hc =>
    obtain ⟨h1, h2⟩ := hc
    have h1' : 65 ≤ c.toNat := h1
    have h2' : c.toNat ≤ 90 := h2
    have hv : (c.toNat + 32).isValidChar := by left; omega
    have ht : (Char.ofNat (c.toNat + 32)).toNat = c.toNat + 32 := by
      rw [Char.ofNat, dif_pos hv]
      rfl
    have heq := congrArg Char.toNat h
    rw [ht] at heq
    omega
  · exact h

/-- A match consumes at least one character, and leaves a suffix. -/
theorem matchFrom_suffix {σ : Type} (P : PatFam σ) :
    ∀ (l : List Char) (st : σ) (rest : List Char),
      matchFrom P st l = some rest → rest.length < l.length ∧ rest <:+ l := by
  intro l
  induction l with
  | nil => intro st rest h; simp [matchFrom] at h
  | cons c cs ih =>
    intro st rest h
    rw [matchFrom] at h
    split at h
    · cases h
    · cases h
      exact ⟨Nat.lt_succ_self _, List.suffix_cons c cs⟩
    · next st' _ =>
      obtain ⟨hlt, hsuf⟩ := ih st' rest h
      exact ⟨Nat.lt_trans hlt (Nat.lt_succ_self _),
        hsuf.trans (List.suffix_cons c cs)⟩

/-- If the pattern definitely fails while reading `r`, then no match starts
at the head of `r ++ s`, whatever `s` is. -/
theorem matchFrom_none_of_failsOn {σ : Type} (P : PatFam σ) :
    ∀ (r : List Char) (st : σ), failsOn P st r = true →
      ∀ s, matchFrom P st (r ++ s) = none := by
  intro r
  induction r with
  | nil => intro st h; simp [failsOn] at h
  | cons c cr ih =>
    intro st h s
    rw [failsOn] at h
    rw [List.cons_append, matchFrom]
    split
    · rfl
    · next hst => rw [hst] at h; cases h
    · next st' hst =>
      rw [hst] at h
      exact ih st' h s

/-- Match-absence transfers from the input to the rewritten output, for any
pattern whose reachable states all definitely fail on the replacement
text. -/
theorem matchFrom_none_rewriteGo {σ τ : Type} (P1 : PatFam σ) (st1 : σ)
    (rep : List Char) (P2 : PatFam τ) (Inv : τ → Prop)
    (hClosed : ∀ st c st', Inv st → P2.step st c = .cont st' → Inv st')
    (hFails : ∀ st, Inv st → failsOn P2 st rep = true) :
    ∀ (fuel : Nat) (l : List Char) (st : τ), l.length ≤ fuel → Inv st →
      matchFrom P2 st l = none →
      matchFrom P2 st (rewriteGo (tmOf P1 st1 rep) fuel l) = none := by
  intro fuel
  induction fuel with
  | zero => intro l st _ _ hnone; exact hnone
  | succ n ih =>
    intro l st hle hinv hnone
    cases l with
    | nil => simp [rewriteGo, matchFrom]
    | cons c cs =>
      rw [rewriteGo]
      cases htm : tmOf P1 st1 rep (c :: cs) with
      | some pr =>
        simp only [Option.map_eq_some', tmOf] at htm
        obtain ⟨rest0, _, hpr⟩ := htm
        rw [← hpr]
        exact matchFrom_none_of_failsOn P2 rep st (hFails st hinv) _
      | none =>
        rw [matchFrom]
        rw [matchFrom] at hnone
        cases hst : P2.step st c with
        | fail => rfl
        | accept => rw [hst] at hnone; cases hnone
        | cont st' =>
          rw [hst] at hnone
          exact ih cs st' (Nat.le_of_succ_le_succ hle) (hClosed st c st' hinv hst) hnone

/-- `noMatchAll` on the empty list. -/
theorem noMatchAll_nil {σ : Type} (P : PatFam σ) (st : σ) : noMatchAll P st [] :=
  fun i => by simp [matchFrom]

/-- Build `noMatchAll` on a cons cell. -/
theorem noMatchAll_cons {σ : Type} (P : PatFam σ) (st : σ) (c : Char)
    (cs : List Char) (h0 : matchFrom P st (c :: cs) = none)
    (h : noMatchAll P st cs) : noMatchAll P st (c :: cs) := by
  intro i
  cases i with
  | zero => exact h0
  | succ j => exact h j

/-- Destruct `noMatchAll` on a cons cell. -/
theorem noMatchAll_of_cons {σ : Type} {P : PatFam σ} {st : σ} {c : Char}
    {cs : List Char} (h : noMatchAll P st (c :: cs)) : noMatchAll P st cs :=
  fun i => h (i + 1)

/-- `noMatchAll` restricts to suffixes. -/
theorem noMatchAll_suffix {σ : Type} {P : PatFam σ} {st : σ} {l s : List Char}
    (h : noMatchAll P st l) (hs : s <:+ l) : noMatchAll P st s := by
  obtain ⟨t, rfl⟩ := hs
  intro i
  have := h (t.length + i)
  rwa [List.drop_append] at this

/-- `noMatchAll` on a replacement text followed by match-free text, for a
pattern whose start state definitely fails inside the replacement. -/
theorem noMatchAll_append_rep {σ : Type} (P : PatFam σ) (st : σ)
    (rep B : List Char)
    (hdrops : ∀ i, i < rep.length → failsOn P st (rep.drop i) = true)
    (hB : noMatchAll P st B) : noMatchAll P st (rep ++ B) := by
  intro i
  by_cases hlt : i < rep.length
  · rw [List.drop_append_of_le_length (Nat.le_of_lt hlt)]
    exact matchFrom_none_of_failsOn P (rep.drop i) st (hdrops i hlt) B
  · have hge : rep.length ≤ i := Nat.le_of_not_lt hlt
    have : i = rep.length + (i - rep.length) := by omega
    rw [this, List.drop_append]
    exact hB (i - rep.length)

/-- MAIN: a neutralization pass leaves no match of its own pattern. -/
theorem noMatchAll_rewriteGo_self {σ : Type} (P1 : PatFam σ) (st1 : σ)
    (rep : List Char) (Inv : σ → Prop) (hInv0 : Inv st1)
    (hClosed : ∀ st c st', Inv st → P1.step st c = .cont st' → Inv st')
    (hFails : ∀ st, Inv st → failsOn P1 st rep = true)
    (hDrops : ∀ i, i < rep.length → failsOn P1 st1 (rep.drop i) = true) :
    ∀ (fuel : Nat) (l : List Char), l.length ≤ fuel →
      noMatchAll P1 st1 (rewriteGo (tmOf P1 st1 rep) fuel l) := by
  intro fuel
  induction fuel with
  | zero =>
    intro l hle
    have : l = [] := List.eq_nil_of_length_eq_zero (Nat.le_zero.mp hle)
    subst this
    exact noMatchAll_nil P1 st1
  | succ n ih =>
    intro l hle
    cases l with
    | nil => exact noMatchAll_nil P1 st1
    | cons c cs =>
      rw [rewriteGo]
      cases htm : tmOf P1 st1 rep (c :: cs) with
      | some pr =>
        simp only [Option.map_eq_some', tmOf] at htm
        obtain ⟨rest0, hm, hpr⟩ := htm
        rw [← hpr]
        have hrest := (matchFrom_suffix P1 (c :: cs) st1 rest0 hm).1
        rw [List.length_cons] at hle hrest
        exact noMatchAll_append_rep P1 st1 rep _ hDrops (ih rest0 (by omega))
      | none =>
        have hm : matchFrom P1 st1 (c :: cs) = none := by
          simpa [tmOf, Option.map_eq_none'] using htm
        refine noMatchAll_cons P1 st1 c _ ?_ (ih cs (Nat.le_of_succ_le_succ hle))
        rw [matchFrom]
        rw [matchFrom] at hm
        cases hst : P1.step st1 c with
        | fail => rfl
        | accept => rw [hst] at hm; cases hm
        | cont st' =>
          rw [hst] at hm
          exact matchFrom_none_rewriteGo P1 st1 rep P1 Inv hClosed hFails n cs st'
            (Nat.le_of_succ_le_succ hle) (hClosed st1 c st' hInv0 hst) hm

/-- PRESERVE: a neutralization pass preserves the absence of matches of
another pattern (whose reachable states all fail on the replacement). -/
theorem noMatchAll_rewriteGo_other {σ τ : Type} (P1 : PatFam σ) (st1 : σ)
    (rep : List Char) (P2 : PatFam τ) (Inv2 : τ → Prop) (st2 : τ)
    (hInv0 : Inv2 st2)
    (hClosed : ∀ st c st', Inv2 st → P2.step st c = .cont st' → Inv2 st')
    (hFails : ∀ st, Inv2 st → failsOn P2 st rep = true)
    (hDrops : ∀ i, i < rep.length → failsOn P2 st2 (rep.drop i) = true) :
    ∀ (fuel : Nat) (l : List Char), l.length ≤ fuel → noMatchAll P2 st2 l →
      noMatchAll P2 st2 (rewriteGo (tmOf P1 st1 rep) fuel l) := by
  intro fuel
  induction fuel with
  | zero => intro l _ h; exact h
  | succ n ih =>
    intro l hle hl
    cases l with
    | nil => exact noMatchAll_nil P2 st2
    | cons c cs =>
      rw [rewriteGo]
      cases htm : tmOf P1 st1 rep (c :: cs) with
      | some pr =>
        simp only [Option.map_eq_some', tmOf] at htm
        obtain ⟨rest0, hm, hpr⟩ := htm
        rw [← hpr]
        obtain ⟨hlen, hsuf⟩ := matchFrom_suffix P1 (c :: cs) st1 rest0 hm
        rw [List.length_cons] at hle hlen
        exact noMatchAll_append_rep P2 st2 rep _ hDrops
          (ih rest0 (by omega) (noMatchAll_suffix hl hsuf))
      | none =>
        refine noMatchAll_cons P2 st2 c _ ?_
          (ih cs (Nat.le_of_succ_le_succ hle) (noMatchAll_of_cons hl))
        have h0 := hl 0
        simp only [List.drop_zero] at h0
        rw [matchFrom]
        rw [matchFrom] at h0
        cases hst : P2.step st2 c with
        | fail => rfl
        | accept => rw [hst] at h0; cases h0
        | cont st' =>
          rw [hst] at h0
          exact matchFrom_none_rewriteGo P1 st1 rep P2 Inv2 hClosed hFails n cs st'
            (Nat.le_of_succ_le_succ hle) (hClosed st2 c st' hInv0 hst) h0

/-- IDENT: on match-free input, a rewriting pass is the identity. -/
theorem rewriteGo_id_of_noMatch {σ : Type} (P1 : PatFam σ) (st1 : σ)
    (rep : List Char) :
    ∀ (fuel : Nat) (l : List Char), noMatchAll P1 st1 l →
      rewriteGo (tmOf P1 st1 rep) fuel l = l := by
  intro fuel
  induction fuel with
  | zero => intro l _; rfl
  | succ n ih =>
    intro l hl
    cases l with
    | nil => rfl
    | cons c cs =>
      rw [rewriteGo]
      have h0 := hl 0
      simp only [List.drop_zero] at h0
      have htm : tmOf P1 st1 rep (c :: cs) = none := by
        simp [tmOf, Option.map_eq_none', h0]
      rw [htm]
      rw [ih cs (noMatchAll_of_cons hl)]

/-- `hasM = false` is exactly `noMatchAll`. -/
theorem hasM_false_iff {σ : Type} (P : PatFam σ) (st : σ) :
    ∀ (fuel : Nat) (l : List Char), l.length ≤ fuel →
      (hasMGo P st fuel l = false ↔ noMatchAll P st l) := by
  intro fuel
  induction fuel with
  | zero =>
    intro l hle
    have : l = [] := List.eq_nil_of_length_eq_zero (Nat.le_zero.mp hle)
    subst this
    simp [hasMGo]
    exact noMatchAll_nil P st
  | succ n ih =>
    intro l hle
    cases l with
    | nil =>
      simp [hasMGo]
      exact noMatchAll_nil P st
    | cons c cs =>
      rw [hasMGo]
      constructor
      · intro h
        rw [Bool.or_eq_false_iff] at h
        refine noMatchAll_cons P st c cs ?_
          ((ih cs (Nat.le_of_succ_le_succ hle)).mp h.2)
        exact Option.not_isSome_iff_eq_none.mp (by simp [h.1])
      · intro h
        rw [Bool.or_eq_false_iff]
        have h0 := h 0
        simp only [List.drop_zero] at h0
        exact ⟨by simp [h0], (ih cs (Nat.le_of_succ_le_succ hle)).mpr
          (noMatchAll_of_cons h)⟩

/-! ## Pattern-instance facts -/

/-- Reachable-state closure for `/word\s*:/i`. -/
theorem schemeInv_closed (w : List Char) :
    ∀ st c st', schemeInv w st → schemePat.step st c = .cont st' → schemeInv w st' := by
  intro st c st' hst hstep
  cases st with
  | colonSp =>
    simp only [schemePat] at hstep
    split at hstep
    · cases hstep
    · split at hstep
      · cases hstep
        trivial
      · cases hstep
  | word v =>
    cases v with
    | nil =>
      simp only [schemePat] at hstep
      exact StepRes.noConfusion hstep
    | cons x xs =>
      simp only [schemePat] at hstep
      split at hstep
      · split at hstep
        · cases hstep
          trivial
        · next hxs =>
          cases hstep
          obtain ⟨_, hsuf⟩ := hst
          refine ⟨by simpa using hxs, ?_⟩
          exact (List.suffix_cons x xs).trans hsuf
      · cases hstep

/-- Reachable-state closure for a case-insensitive literal. -/
theorem litInv_closed (w : List Char) :
    ∀ st c st', litInv w st → litPat.step st c = .cont st' → litInv w st' := by
  intro st c st' hst hstep
  cases st with
  | word v =>
    cases v with
    | nil =>
      simp only [litPat] at hstep
      exact StepRes.noConfusion hstep
    | cons x xs =>
      simp only [litPat] at hstep
      split at hstep
      · split at hstep
        · cases hstep
        · next hxs =>
          cases hstep
          obtain ⟨_, hsuf⟩ := hst
          exact ⟨by simpa using hxs, (List.suffix_cons x xs).trans hsuf⟩
      · cases hstep

/-- Discharge the replacement-failure condition for `/word\s*:/i` from a
finite check over the word's suffixes. -/
theorem schemeInv_fails (w rep : List Char)
    (hcheck : ((w.tails.all (fun v => v.isEmpty || failsOn schemePat (.word v) rep)) &&
               failsOn schemePat .colonSp rep) = true) :
    ∀ st, schemeInv w st → failsOn schemePat st rep = true := by
  rw [Bool.and_eq_true] at hcheck
  intro st hst
  cases st with
  | colonSp => exact hcheck.2
  | word v =>
    obtain ⟨hne, hsuf⟩ := hst
    have hv : v ∈ w.tails := (List.mem_tails _ _).mpr hsuf
    have := List.all_eq_true.mp hcheck.1 v hv
    rw [Bool.or_eq_true] at this
    rcases this with h | h
    · exact absurd (List.isEmpty_iff.mp h) hne
    · exact h

/-- Discharge the replacement-failure condition for a literal pattern from
a finite check over the word's suffixes. -/
theorem litInv_fails (w rep : List Char)
    (hcheck : w.tails.all (fun v => v.isEmpty || failsOn litPat (.word v) rep) = true) :
    ∀ st, litInv w st → failsOn litPat st rep = true := by
  intro st hst
  cases st with
  | word v =>
    obtain ⟨hne, hsuf⟩ := hst
    have hv : v ∈ w.tails := (List.mem_tails _ _).mpr hsuf
    have := List.all_eq_true.mp hcheck v hv
    rw [Bool.or_eq_true] at this
    rcases this with h | h
    · exact absurd (List.isEmpty_iff.mp h) hne
    · exact h

/-- After the three scheme passes, no match of any of the three scheme
patterns remains: each pass eliminates its own matches, the replacement
`blocked:` cannot host a new match, and the later passes preserve the
absence. -/
theorem neutralizeSchemes_noMatchAll (l : List Char) :
    noMatchAll schemePat (.word "javascript".toList) (neutralizeSchemes l) ∧
    noMatchAll schemePat (.word "data".toList) (neutralizeSchemes l) ∧
    noMatchAll schemePat (.word "vbscript".toList) (neutralizeSchemes l) := by
  have hjC := schemeInv_closed "javascript".toList
  have hdC := schemeInv_closed "data".toList
  have hvC := schemeInv_closed "vbscript".toList
  have hjF := schemeInv_fails "javascript".toList blockedColon (by decide)
  have hdF := schemeInv_fails "data".toList blockedColon (by decide)
  have hvF := schemeInv_fails "vbscript".toList blockedColon (by decide)
  have hjD : ∀ i, i < blockedColon.length →
      failsOn schemePat (.word "javascript".toList) (blockedColon.drop i) = true := by decide
  have hdD : ∀ i, i < blockedColon.length →
      failsOn schemePat (.word "data".toList) (blockedColon.drop i) = true := by decide
  have hvD : ∀ i, i < blockedColon.length →
      failsOn schemePat (.word "vbscript".toList) (blockedColon.drop i) = true := by decide
  have hjI : schemeInv "javascript".toList (.word "javascript".toList) :=
    ⟨by decide, List.suffix_refl _⟩
  have hdI : schemeInv "data".toList (.word "data".toList) :=
    ⟨by decide, List.suffix_refl _⟩
  have hvI : schemeInv "vbscript".toList (.word "vbscript".toList) :=
    ⟨by decide, List.suffix_refl _⟩
  unfold neutralizeSchemes replaceScheme rewriteTop
  refine ⟨?_, ?_, ?_⟩
  · apply noMatchAll_rewriteGo_other _ _ _ _ (schemeInv "javascript".toList) _ hjI hjC hjF hjD
      _ _ (le_refl _)
    apply noMatchAll_rewriteGo_other _ _ _ _ (schemeInv "javascript".toList) _ hjI hjC hjF hjD
      _ _ (le_refl _)
    exact noMatchAll_rewriteGo_self _ _ _ (schemeInv "javascript".toList) hjI hjC hjF hjD
      _ _ (le_refl _)
  · apply noMatchAll_rewriteGo_other _ _ _ _ (schemeInv "data".toList) _ hdI hdC hdF hdD
      _ _ (le_refl _)
    exact noMatchAll_rewriteGo_self _ _ _ (schemeInv "data".toList) hdI hdC hdF hdD
      _ _ (le_refl _)
  · exact noMatchAll_rewriteGo_self _ _ _ (schemeInv "vbscript".toList) hvI hvC hvF hvD
      _ _ (le_refl _)

/-! ## C1 -/

/-- No entity expansion contains `<`. -/
theorem entity02_no_lt (c : Char) : (entity02 c).all (fun d => d ≠ '<') = true := by
  unfold entity02
  split_ifs with h1 h2 h3 h4 h5 h6 h7 h8
  · decide
  · decide
  · decide
  · decide
  · decide
  · decide
  · decide
  · decide
  · simp [h2]

/-- `escapeHTML` output contains no `<` at all. -/
theorem escapeHTMLList_no_lt (l : List Char) :
    (escapeHTMLList l).all (fun d => d ≠ '<') = true := by
  induction l with
  | nil => rfl
  | cons c cs ih =>
    rw [escapeHTMLList, List.all_append, Bool.and_eq_true]
    exact ⟨entity02_no_lt c, ih⟩

/-- `ciEq '<' c` can only hold at `<` itself. -/
theorem ciEq_lt_false (c : Char) (h : ¬ c = '<') : ciEq '<' c = false := by
  unfold ciEq
  rw [decide_eq_false_iff_not]
  intro he
  exact h (lowerC_eq_low_symbol c '<' (by decide) ((show lowerC '<' = '<' from rfl) ▸ he.symm))

/-- A `<`-free text has no case-insensitive occurrence of any word starting
with `<`. -/
theorem containsCI_lt_false (w l : List Char)
    (hall : l.all (fun c => ¬ c = '<') = true) : containsCI ('<' :: w) l = false := by
  unfold containsCI hasM
  rw [hasM_false_iff litPat _ l.length l (le_refl _)]
  intro i
  cases hdrop : l.drop i with
  | nil => simp [matchFrom]
  | cons c cs =>
    have hc : c ∈ l := List.drop_subset i l (hdrop ▸ List.mem_cons_self c cs)
    have hcne : ¬ c = '<' := by simpa using List.all_eq_true.mp hall c hc
    rw [matchFrom]
    have hstep : litPat.step (.word ('<' :: w)) c = .fail := by
      simp only [litPat, ciEq_lt_false c hcne, Bool.false_eq_true, if_false]
    rw [hstep]

/-- C1 counterexample: tag stripping runs *after* scheme neutralization and
can reassemble a scheme marker from fragments the neutralization pass could
not see: `javascript<b>:` sanitizes to the literal unescaped text
`javascript:`. -/
theorem sanitizeHTML_scheme_reassembly :
    sanitizeHTML "javascript<b>:" {} = "javascript:" ∧
    containsCI "javascript:".toList (sanitizeHTML "javascript<b>:" {}).toList = true :=
  ⟨rfl, by decide⟩

/-- C1 (corrected): the `<`-freedom half of the guarantee holds outright —
the final entity pass leaves no `<` at all, hence no case-insensitive
`<script` substring, for every input and policy.  The scheme half holds at
the pass level: immediately after the three neutralization passes no
occurrence of `javascript\s*:`/`data\s*:`/`vbscript\s*:` (case-insensitive)
remains; but later passes can reassemble a marker from text a tag split
(see the counterexample), so it is not an end-to-end output property. -/
theorem sanitizeHTML_no_lt_and_neutralization :
    (∀ html o, (sanitizeHTML html o).toList.all (fun c => ¬ c = '<') = true) ∧
    (∀ html o, containsCI "<script".toList (sanitizeHTML html o).toList = false) ∧
    (∀ l, hasM schemePat (.word "javascript".toList) (neutralizeSchemes l) = false ∧
          hasM schemePat (.word "data".toList) (neutralizeSchemes l) = false ∧
          hasM schemePat (.word "vbscript".toList) (neutralizeSchemes l) = false) := by
  have hmain : ∀ html o, ((sanitizeHTML html o).toList.all (fun c => ¬ c = '<')) = true := by
    intro html o
    show (sanitizeHTMLList html.toList o).all (fun c => ¬ c = '<') = true
    unfold sanitizeHTMLList
    exact escapeHTMLList_no_lt _
  refine ⟨hmain, ?_, ?_⟩
  · intro html o
    exact containsCI_lt_false _ _ (hmain html o)
  · intro l
    obtain ⟨hj, hd, hv⟩ := neutralizeSchemes_noMatchAll l
    exact ⟨(hasM_false_iff _ _ _ _ (le_refl _)).mpr hj,
           (hasM_false_iff _ _ _ _ (le_refl _)).mpr hd,
           (hasM_false_iff _ _ _ _ (le_refl _)).mpr hv⟩

/-! ## C4 support: identity, character and length lemmas -/

/-- A rewriting pass with no match at any position is the identity. -/
theorem rewriteGo_id_of_none (tm : List Char → Option (List Char × List Char)) :
    ∀ (fuel : Nat) (l : List Char), (∀ i, tm (l.drop i) = none) →
      rewriteGo tm fuel l = l := by
  intro fuel
  induction fuel with
  | zero => intro l _; rfl
  | succ n ih =>
    intro l h
    cases l with
    | nil => rfl
    | cons c cs =>
      rw [rewriteGo]
      have h0 := h 0
      simp only [List.drop_zero] at h0
      rw [h0]
      rw [ih cs (fun i => h (i + 1))]

/-- A rewriting pass whose matches always contain a witness character is
the identity on witness-free input. -/
theorem rewriteTop_id_of_witness_absent
    (tm : List Char → Option (List Char × List Char)) (w : Char → Bool)
    (hwit : ∀ s p, tm s = some p → ∃ c, c ∈ s ∧ w c = true)
    (l : List Char) (habs : ∀ c ∈ l, w c = false) : rewriteTop tm l = l := by
  apply rewriteGo_id_of_none
  intro i
  cases htm : tm (l.drop i) with
  | none => rfl
  | some p =>
    obtain ⟨c, hc, hwc⟩ := hwit _ p htm
    have := habs c (List.drop_subset i l hc)
    rw [this] at hwc
    cases hwc

/-- Characters of a constant-replacement pass output come from the input or
the replacement. -/
theorem rewriteGo_chars {σ : Type} (P : PatFam σ) (st : σ) (rep : List Char) :
    ∀ (fuel : Nat) (l : List Char) (c : Char),
      c ∈ rewriteGo (tmOf P st rep) fuel l → c ∈ l ∨ c ∈ rep := by
  intro fuel
  induction fuel with
  | zero => intro l c h; exact Or.inl h
  | succ n ih =>
    intro l c h
    cases l with
    | nil => simp [rewriteGo] at h
    | cons a cs =>
      rw [rewriteGo] at h
      cases htm : tmOf P st rep (a :: cs) with
      | some pr =>
        rw [htm] at h
        simp only [Option.map_eq_some', tmOf] at htm
        obtain ⟨rest0, hm, hpr⟩ := htm
        rw [← hpr] at h
        rcases List.mem_append.mp h with h | h
        · exact Or.inr h
        · rcases ih rest0 c h with h | h
          · exact Or.inl ((matchFrom_suffix P (a :: cs) st rest0 hm).2.subset h)
          · exact Or.inr h
      | none =>
        rw [htm] at h
        rcases List.mem_cons.mp h with rfl | h
        · exact Or.inl (List.mem_cons_self _ _)
        · rcases ih cs c h with h | h
          · exact Or.inl (List.mem_cons_of_mem a h)
          · exact Or.inr h

/-- Length bound for a shrinking pass (replacement no longer than any
match). -/
theorem rewriteGo_length_le (tm : List Char → Option (List Char × List Char))
    (htm : ∀ l' rep rest, tm l' = some (rep, rest) →
      rep.length + rest.length ≤ l'.length) :
    ∀ (fuel : Nat) (l : List Char), (rewriteGo tm fuel l).length ≤ l.length := by
  intro fuel
  induction fuel with
  | zero => intro l; exact le_refl _
  | succ n ih =>
    intro l
    cases l with
    | nil => simp [rewriteGo]
    | cons c cs =>
      rw [rewriteGo]
      cases htm2 : tm (c :: cs) with
      | some pr =>
        obtain ⟨rep, rest⟩ := pr
        have hb := htm _ _ _ htm2
        have := ih rest
        simp only [List.length_append, List.length_cons] at *
        omega
      | none =>
        have := ih cs
        simp only [List.length_cons]
        omega

/-- Length bound for a pass that can at most double (replacement at most
twice as long as any match). -/
theorem rewriteGo_length_le_double (tm : List Char → Option (List Char × List Char))
    (htm : ∀ l' rep rest, tm l' = some (rep, rest) →
      rep.length + 2 * rest.length ≤ 2 * l'.length) :
    ∀ (fuel : Nat) (l : List Char), (rewriteGo tm fuel l).length ≤ 2 * l.length := by
  intro fuel
  induction fuel with
  | zero => intro l; show l.length ≤ 2 * l.length; omega
  | succ n ih =>
    intro l
    cases l with
    | nil => simp [rewriteGo]
    | cons c cs =>
      rw [rewriteGo]
      cases htm2 : tm (c :: cs) with
      | some pr =>
        obtain ⟨rep, rest⟩ := pr
        have hb := htm _ _ _ htm2
        have := ih rest
        simp only [List.length_append, List.length_cons] at *
        omega
      | none =>
        have := ih cs
        simp only [List.length_cons]
        omega

/-- Minimum number of characters a scheme-pattern state still consumes. -/
theorem schemeMatch_consumes :
    ∀ (l : List Char) (st : SchemeSt) (rest : List Char),
      matchFrom schemePat st l = some rest →
      (match st with | .word v => v.length + 1 | .colonSp => 1) + rest.length ≤ l.length := by
  intro l
  induction l with
  | nil => intro st rest h; simp [matchFrom] at h
  | cons c cs ih =>
    intro st rest h
    rw [matchFrom] at h
    cases hst : schemePat.step st c with
    | fail => rw [hst] at h; cases h
    | accept =>
      rw [hst] at h
      cases h
      cases st with
      | colonSp => simp only [List.length_cons]; omega
      | word v =>
        cases v with
        | nil => simp [schemePat] at hst
        | cons x xs =>
          simp only [schemePat] at hst
          split at hst
          · split at hst <;> cases hst
          · cases hst
    | cont st' =>
      rw [hst] at h
      have := ih st' rest h
      cases st with
      | colonSp =>
        simp only [schemePat] at hst
        revert hst
        split
        · intro hst; cases hst
        · split
          · intro hst
            cases hst
            simp only [List.length_cons]
            omega
          · intro hst; cases hst
      | word v =>
        cases v with
        | nil => simp only [schemePat] at hst; cases hst
        | cons x xs =>
          simp only [schemePat] at hst
          revert hst
          split
          · split
            · intro hst
              cases hst
              simp only [List.length_cons] at *
              have hxs : xs.isEmpty = true := by assumption
              rw [List.isEmpty_iff.mp hxs]
              simp only [List.length_nil, List.length_cons] at *
              omega
            · intro hst
              cases hst
              simp only [List.length_cons] at *
              omega
          · intro hst; cases hst

/-- Unescaped characters pass through `escapeHTML` unchanged. -/
theorem entity02_id (c : Char) (h : escChar c = false) : entity02 c = [c] := by
  unfold escChar at h
  simp only [decide_eq_false_iff_not, not_or] at h
  obtain ⟨h1, h2, h3, h4, h5, h6, h7, h8⟩ := h
  unfold entity02
  rw [if_neg h1, if_neg h2, if_neg h3, if_neg h4, if_neg h5, if_neg h6, if_neg h7, if_neg h8]

/-- `escapeHTML` is the identity on strings free of the eight escaped
characters. -/
theorem escapeHTMLList_id (l : List Char)
    (h : ∀ c ∈ l, escChar c = false) : escapeHTMLList l = l := by
  induction l with
  | nil => rfl
  | cons c cs ih =>
    rw [escapeHTMLList, entity02_id c (h c (List.mem_cons_self c cs)),
      ih (fun d hd => h d (List.mem_cons_of_mem c hd))]
    rfl

/-- Membership transfers from `dropWhile` output to the original list. -/
theorem mem_of_mem_dropWhile (q : Char → Bool) (l : List Char) (c : Char)
    (h : c ∈ l.dropWhile q) : c ∈ l := by
  induction l with
  | nil => simp at h
  | cons a as ih =>
    rw [List.dropWhile_cons] at h
    split at h
    · exact List.mem_cons_of_mem a (ih h)
    · exact h

/-- A successful case-insensitive drop of a `<`-headed word finds a literal
`<` in the input. -/
theorem ciDropWord_lt_mem (w l r : List Char)
    (hw : headSat (fun c => c = '<') w = true)
    (h : ciDropWord w l = some r) : '<' ∈ l := by
  cases w with
  | nil => simp [headSat] at hw
  | cons w0 ws =>
    have hw0 : w0 = '<' := by simpa [headSat] using hw
    subst hw0
    cases l with
    | nil => simp [ciDropWord] at h
    | cons c cs =>
      simp only [ciDropWord] at h
      by_cases hc : c = '<'
      · rw [hc]; exact List.mem_cons_self _ _
      · rw [ciEq_lt_false c hc] at h
        simp at h

/-- A paired-block match with a `<`-headed opening literal needs a `<`. -/
theorem pairedBlockTm_lt (openLit close s : List Char) (p : List Char × List Char)
    (hw : headSat (fun c => c = '<') openLit = true)
    (h : pairedBlockTm openLit close s = some p) : '<' ∈ s := by
  cases hcd : ciDropWord openLit s with
  | none => simp [pairedBlockTm, hcd] at h
  | some afterName => exact ciDropWord_lt_mem openLit s afterName hw hcd

/-- A paired-frame match needs a `<`. -/
theorem framePairedTm_lt (s : List Char) (p : List Char × List Char)
    (h : framePairedTm s = some p) : '<' ∈ s := by
  cases s with
  | nil => simp [framePairedTm] at h
  | cons c0 rest0 =>
    by_cases hc : c0 = '<'
    · rw [hc]; exact List.mem_cons_self _ _
    · simp [framePairedTm, hc] at h

/-- A self-closing-frame match needs a `<`. -/
theorem frameSelfTm_lt (s : List Char) (p : List Char × List Char)
    (h : frameSelfTm s = some p) : '<' ∈ s := by
  cases s with
  | nil => simp [frameSelfTm] at h
  | cons c0 rest0 =>
    by_cases hc : c0 = '<'
    · rw [hc]; exact List.mem_cons_self _ _
    · simp [frameSelfTm, hc] at h

/-- A strip-all-tags match needs a `<`. -/
theorem tagStripTm_lt (s : List Char) (p : List Char × List Char)
    (h : tagStripTm s = some p) : '<' ∈ s := by
  cases s with
  | nil => simp [tagStripTm] at h
  | cons c0 rest0 =>
    by_cases hc : c0 = '<'
    · rw [hc]; exact List.mem_cons_self _ _
    · simp [tagStripTm, hc] at h

/-- A formatting-tag-rewrite match needs a `<`. -/
theorem tagRewriteTm_lt (s : List Char) (p : List Char × List Char)
    (h : tagRewriteTm s = some p) : '<' ∈ s := by
  cases s with
  | nil => simp [tagRewriteTm] at h
  | cons c0 rest0 =>
    by_cases hc : c0 = '<'
    · rw [hc]; exact List.mem_cons_self _ _
    · simp [tagRewriteTm, hc] at h

/-- An anchor-removal match needs a `<`. -/
theorem linkRemoveTm_lt (s : List Char) (p : List Char × List Char)
    (h : linkRemoveTm s = some p) : '<' ∈ s := by
  cases s with
  | nil => simp [linkRemoveTm] at h
  | cons c0 rest =>
    cases rest with
    | nil => simp [linkRemoveTm] at h
    | cons c rest0 =>
      by_cases hc : c0 = '<'
      · rw [hc]; exact List.mem_cons_self _ _
      · simp [linkRemoveTm, hc] at h

/-- An anchor-rebuild match needs a `<`. -/
theorem linkAllowTm_lt (s : List Char) (p : List Char × List Char)
    (h : linkAllowTm s = some p) : '<' ∈ s := by
  cases s with
  | nil => simp [linkAllowTm] at h
  | cons c0 rest =>
    cases rest with
    | nil => simp [linkAllowTm] at h
    | cons c rest0 =>
      by_cases hc : c0 = '<'
      · rw [hc]; exact List.mem_cons_self _ _
      · simp [linkAllowTm, hc] at h

/-- An image-removal match needs a `<`. -/
theorem imgRemoveTm_lt (s : List Char) (p : List Char × List Char)
    (h : imgRemoveTm s = some p) : '<' ∈ s := by
  cases hcd : ciDropWord "<img".toList s with
  | none =>
    unfold imgRemoveTm at h
    rw [hcd] at h
    exact Option.noConfusion h
  | some rest0 => exact ciDropWord_lt_mem _ _ _ (by decide) hcd

/-- An image-rebuild match needs a `<`. -/
theorem imgAllowTm_lt (s : List Char) (p : List Char × List Char)
    (h : imgAllowTm s = some p) : '<' ∈ s := by
  cases hcd : ciDropWord "<img".toList s with
  | none =>
    unfold imgAllowTm at h
    rw [hcd] at h
    exact Option.noConfusion h
  | some rest0 => exact ciDropWord_lt_mem _ _ _ (by decide) hcd

/-- A quoted-event-handler match needs an `=`. -/
theorem handlerQuotedTm_eq (s : List Char) (p : List Char × List Char)
    (h : handlerQuotedTm s = some p) : '=' ∈ s := by
  unfold handlerQuotedTm at h
  split at h
  next o n rest1 heq =>
    split at h
    · split at h
      · cases h
      · split at h
        next rest3 heq2 =>
          have hA : '=' ∈ (rest1.dropWhile isWordChar).dropWhile isSpaceJS := by
            rw [heq2]; exact List.mem_cons_self _ _
          have h1 := mem_of_mem_dropWhile _ _ _ hA
          have h2 := mem_of_mem_dropWhile _ _ _ h1
          have h3 : '=' ∈ s.dropWhile isSpaceJS := by
            rw [heq]; exact List.mem_cons_of_mem _ (List.mem_cons_of_mem _ h2)
          exact mem_of_mem_dropWhile _ _ _ h3
        next => cases h
    · cases h
  next => cases h

/-- An unquoted-event-handler match needs an `=`. -/
theorem handlerUnquotedTm_eq (s : List Char) (p : List Char × List Char)
    (h : handlerUnquotedTm s = some p) : '=' ∈ s := by
  unfold handlerUnquotedTm at h
  split at h
  next o n rest1 heq =>
    split at h
    · split at h
      · cases h
      · split at h
        next rest3 heq2 =>
          have hA : '=' ∈ (rest1.dropWhile isWordChar).dropWhile isSpaceJS := by
            rw [heq2]; exact List.mem_cons_self _ _
          have h1 := mem_of_mem_dropWhile _ _ _ hA
          have h2 := mem_of_mem_dropWhile _ _ _ h1
          have h3 : '=' ∈ s.dropWhile isSpaceJS := by
            rw [heq]; exact List.mem_cons_of_mem _ (List.mem_cons_of_mem _ h2)
          exact mem_of_mem_dropWhile _ _ _ h3
        next => cases h
    · cases h
  next => cases h

/-- A match of `/word\s*\([^)]*\)/i` begins with a case-insensitive match of
the bare word. -/
theorem exprCss_match_imp_lit :
    ∀ (s v r : List Char), matchFrom exprCssPat (.word v) s = some r →
      ∃ r', matchFrom litPat (.word v) s = some r' := by
  intro s
  induction s with
  | nil => intro v r h; simp [matchFrom] at h
  | cons c cs ih =>
    intro v r h
    cases v with
    | nil =>
      rw [matchFrom] at h
      have hstep : exprCssPat.step (.word []) c = .fail := rfl
      rw [hstep] at h
      cases h
    | cons x xs =>
      rw [matchFrom] at h
      by_cases hx : ciEq x c = true
      · by_cases hxs : xs.isEmpty = true
        · have hxs' : xs = [] := List.isEmpty_iff.mp hxs
          have h2 : litPat.step (.word (x :: xs)) c = .accept := by
            simp [litPat, hx, hxs']
          exact ⟨cs, by rw [matchFrom, h2]⟩
        · have hxs' : ¬ xs = [] := fun he => hxs (by simp [he])
          have h1 : exprCssPat.step (.word (x :: xs)) c = .cont (.word xs) := by
            simp [exprCssPat, hx, hxs']
          have h2 : litPat.step (.word (x :: xs)) c = .cont (.word xs) := by
            simp [litPat, hx, hxs']
          rw [h1] at h
          obtain ⟨r', hr'⟩ := ih xs r h
          exact ⟨r', by rw [matchFrom, h2]; exact hr'⟩
      · have h1 : exprCssPat.step (.word (x :: xs)) c = .fail := by
          simp [exprCssPat, hx]
        rw [h1] at h
        cases h

/-- Absence of the bare word transfers to absence of the
`/word\s*\([^)]*\)/i` pattern. -/
theorem noMatchAll_exprCss_of_lit (w l : List Char)
    (h : noMatchAll litPat (.word w) l) :
    noMatchAll exprCssPat (.word w) l := by
  intro i
  cases hm : matchFrom exprCssPat (.word w) (l.drop i) with
  | none => rfl
  | some r =>
    obtain ⟨r', hr'⟩ := exprCss_match_imp_lit (l.drop i) w r hm
    rw [h i] at hr'
    cases hr'

/-- The three scheme passes preserve the absence of a case-insensitive
literal whose reachable states all fail on `blocked:`. -/
theorem neutralizeSchemes_preserves_lit (w : List Char) (hne : w ≠ [])
    (hF : ∀ st, litInv w st → failsOn litPat st blockedColon = true)
    (hD : ∀ i, i < blockedColon.length →
      failsOn litPat (.word w) (blockedColon.drop i) = true)
    (l : List Char) (h : noMatchAll litPat (.word w) l) :
    noMatchAll litPat (.word w) (neutralizeSchemes l) := by
  have hC := litInv_closed w
  have hI : litInv w (.word w) := ⟨hne, List.suffix_refl _⟩
  unfold neutralizeSchemes replaceScheme rewriteTop
  apply noMatchAll_rewriteGo_other _ _ _ _ (litInv w) _ hI hC hF hD _ _ (le_refl _)
  apply noMatchAll_rewriteGo_other _ _ _ _ (litInv w) _ hI hC hF hD _ _ (le_refl _)
  exact noMatchAll_rewriteGo_other _ _ _ _ (litInv w) _ hI hC hF hD _ _ (le_refl _) h

/-- Characters of the scheme-neutralized text come from the input or from
`blocked:`. -/
theorem neutralizeSchemes_mem (l : List Char) (c : Char)
    (h : c ∈ neutralizeSchemes l) : c ∈ l ∨ c ∈ blockedColon := by
  unfold neutralizeSchemes replaceScheme rewriteTop at h
  rcases rewriteGo_chars schemePat _ blockedColon _ _ c h with h | h
  · rcases rewriteGo_chars schemePat _ blockedColon _ _ c h with h | h
    · rcases rewriteGo_chars schemePat _ blockedColon _ _ c h with h | h
      · exact Or.inl h
      · exact Or.inr h
    · exact Or.inr h
  · exact Or.inr h

/-- Scheme neutralization preserves freedom from the escaped characters. -/
theorem neutralizeSchemes_escFree (l : List Char)
    (h : ∀ c ∈ l, escChar c = false) :
    ∀ c ∈ neutralizeSchemes l, escChar c = false := by
  intro c hc
  rcases neutralizeSchemes_mem l c hc with h1 | h1
  · exact h c h1
  · have hall : blockedColon.all (fun c => ! escChar c) = true := by decide
    have := List.all_eq_true.mp hall c h1
    simpa using this

/-- A scheme pass with a word at least as long as `blocked` shrinks. -/
theorem replaceScheme_length_le (w : List Char)
    (hw : blockedColon.length ≤ w.length + 1) (l : List Char) :
    (replaceScheme w l).length ≤ l.length := by
  unfold replaceScheme rewriteTop
  apply rewriteGo_length_le
  intro l' rep rest htm
  simp only [tmOf, Option.map_eq_some'] at htm
  obtain ⟨rest2, hm, hpr⟩ := htm
  injection hpr with hrep hrest
  subst hrep
  subst hrest
  have := schemeMatch_consumes l' (.word w) _ hm
  simp only at this
  omega

/-- Any scheme pass at most doubles the length. -/
theorem replaceScheme_length_double (w : List Char)
    (hw : blockedColon.length ≤ 2 * (w.length + 1)) (l : List Char) :
    (replaceScheme w l).length ≤ 2 * l.length := by
  unfold replaceScheme rewriteTop
  apply rewriteGo_length_le_double
  intro l' rep rest htm
  simp only [tmOf, Option.map_eq_some'] at htm
  obtain ⟨rest2, hm, hpr⟩ := htm
  injection hpr with hrep hrest
  subst hrep
  subst hrest
  have := schemeMatch_consumes l' (.word w) _ hm
  simp only at this
  omega

/-- The three scheme passes at most double the length (only the `data` pass
can grow the text, and by strictly less than a factor of two). -/
theorem neutralizeSchemes_length (l : List Char) :
    (neutralizeSchemes l).length ≤ 2 * l.length := by
  unfold neutralizeSchemes
  have h1 := replaceScheme_length_le "javascript".toList (by decide) l
  have h2 := replaceScheme_length_double "data".toList (by decide)
    (replaceScheme "javascript".toList l)
  have h3 := replaceScheme_length_le "vbscript".toList (by decide)
    (replaceScheme "data".toList (replaceScheme "javascript".toList l))
  omega

/-- On input within the length cap, free of the eight escaped characters,
and free of case-insensitive `expression` and `@import`, the whole
sanitizer reduces to the three scheme-neutralization passes. -/
theorem sanitizeHTMLList_clean (l : List Char) (o : SanitizeOptions)
    (hlen : l.length ≤ o.maxLength)
    (hesc : ∀ c ∈ l, escChar c = false)
    (hexpr : noMatchAll litPat (.word "expression".toList) l)
    (himp : noMatchAll litPat (.word "@import".toList) l) :
    sanitizeHTMLList l o = neutralizeSchemes l := by
  have hsplit : ∀ c ∈ l, ¬ c = '<' ∧ ¬ c = '=' := by
    intro c hc
    have h := hesc c hc
    unfold escChar at h
    simp only [decide_eq_false_iff_not, not_or] at h
    exact ⟨h.2.1, h.2.2.2.2.2.2.2⟩
  have hltF : ∀ c ∈ l, (fun c => decide (c = '<')) c = false := by
    intro c hc; simp [(hsplit c hc).1]
  have heqF : ∀ c ∈ l, (fun c => decide (c = '=')) c = false := by
    intro c hc; simp [(hsplit c hc).2]
  have hescM : ∀ c ∈ neutralizeSchemes l, escChar c = false :=
    neutralizeSchemes_escFree l hesc
  have hltM : ∀ c ∈ neutralizeSchemes l, (fun c => decide (c = '<')) c = false := by
    intro c hc
    have h := hescM c hc
    unfold escChar at h
    simp only [decide_eq_false_iff_not, not_or] at h
    simp [h.2.1]
  have hexprM : noMatchAll exprCssPat (.word "expression".toList) (neutralizeSchemes l) :=
    noMatchAll_exprCss_of_lit _ _
      (neutralizeSchemes_preserves_lit _ (by decide)
        (litInv_fails _ blockedColon (by decide)) (by decide) l hexpr)
  have himpM : noMatchAll litPat (.word "@import".toList) (neutralizeSchemes l) :=
    neutralizeSchemes_preserves_lit _ (by decide)
      (litInv_fails _ blockedColon (by decide)) (by decide) l himp
  have e1 : l.take o.maxLength = l := List.take_of_length_le hlen
  have e2 : rewriteTop (pairedBlockTm "<script".toList "</script>".toList) l = l :=
    rewriteTop_id_of_witness_absent _ _
      (fun s p hp => ⟨'<', pairedBlockTm_lt _ _ _ _ (by decide) hp, by decide⟩) l hltF
  have e3 : rewriteTop (pairedBlockTm "<style".toList "</style>".toList) l = l :=
    rewriteTop_id_of_witness_absent _ _
      (fun s p hp => ⟨'<', pairedBlockTm_lt _ _ _ _ (by decide) hp, by decide⟩) l hltF
  have e4 : rewriteTop framePairedTm l = l :=
    rewriteTop_id_of_witness_absent _ _
      (fun s p hp => ⟨'<', framePairedTm_lt _ _ hp, by decide⟩) l hltF
  have e5 : rewriteTop frameSelfTm l = l :=
    rewriteTop_id_of_witness_absent _ _
      (fun s p hp => ⟨'<', frameSelfTm_lt _ _ hp, by decide⟩) l hltF
  have e6 : rewriteTop handlerQuotedTm l = l :=
    rewriteTop_id_of_witness_absent _ _
      (fun s p hp => ⟨'=', handlerQuotedTm_eq _ _ hp, by decide⟩) l heqF
  have e7 : rewriteTop handlerUnquotedTm l = l :=
    rewriteTop_id_of_witness_absent _ _
      (fun s p hp => ⟨'=', handlerUnquotedTm_eq _ _ hp, by decide⟩) l heqF
  have e11 : rewriteTop exprCssTm (neutralizeSchemes l) = neutralizeSchemes l :=
    rewriteGo_id_of_noMatch exprCssPat _ blockedWord _ _ hexprM
  have e12 : rewriteTop importAtTm (neutralizeSchemes l) = neutralizeSchemes l :=
    rewriteGo_id_of_noMatch litPat _ blockedWord _ _ himpM
  have e13s : rewriteTop tagStripTm (neutralizeSchemes l) = neutralizeSchemes l :=
    rewriteTop_id_of_witness_absent _ _
      (fun s p hp => ⟨'<', tagStripTm_lt _ _ hp, by decide⟩) _ hltM
  have e13r : rewriteTop tagRewriteTm (neutralizeSchemes l) = neutralizeSchemes l :=
    rewriteTop_id_of_witness_absent _ _
      (fun s p hp => ⟨'<', tagRewriteTm_lt _ _ hp, by decide⟩) _ hltM
  have e14a : rewriteTop linkAllowTm (neutralizeSchemes l) = neutralizeSchemes l :=
    rewriteTop_id_of_witness_absent _ _
      (fun s p hp => ⟨'<', linkAllowTm_lt _ _ hp, by decide⟩) _ hltM
  have e14r : rewriteTop linkRemoveTm (neutralizeSchemes l) = neutralizeSchemes l :=
    rewriteTop_id_of_witness_absent _ _
      (fun s p hp => ⟨'<', linkRemoveTm_lt _ _ hp, by decide⟩) _ hltM
  have e15a : rewriteTop imgAllowTm (neutralizeSchemes l) = neutralizeSchemes l :=
    rewriteTop_id_of_witness_absent _ _
      (fun s p hp => ⟨'<', imgAllowTm_lt _ _ hp, by decide⟩) _ hltM
  have e15r : rewriteTop imgRemoveTm (neutralizeSchemes l) = neutralizeSchemes l :=
    rewriteTop_id_of_witness_absent _ _
      (fun s p hp => ⟨'<', imgRemoveTm_lt _ _ hp, by decide⟩) _ hltM
  have hNS : replaceScheme "vbscript".toList
      (replaceScheme "data".toList (replaceScheme "javascript".toList l)) =
      neutralizeSchemes l := rfl
  simp only [sanitizeHTMLList]
  rw [e1, e2, e3, e4, e5, e6, e7, hNS, e11, e12]
  have b13 : (if o.allowBasicFormatting then rewriteTop tagRewriteTm (neutralizeSchemes l)
      else rewriteTop tagStripTm (neutralizeSchemes l)) = neutralizeSchemes l := by
    cases o.allowBasicFormatting
    · simpa using e13s
    · simpa using e13r
  rw [b13]
  have b14 : (if o.allowLinks then rewriteTop linkAllowTm (neutralizeSchemes l)
      else rewriteTop linkRemoveTm (neutralizeSchemes l)) = neutralizeSchemes l := by
    cases o.allowLinks
    · simpa using e14r
    · simpa using e14a
  rw [b14]
  have b15 : (if o.allowImages then rewriteTop imgAllowTm (neutralizeSchemes l)
      else rewriteTop imgRemoveTm (neutralizeSchemes l)) = neutralizeSchemes l := by
    cases o.allowImages
    · simpa using e15r
    · simpa using e15a
  rw [b15]
  exact escapeHTMLList_id _ hescM

/-- A text with no remaining scheme match is a fixed point of the three
scheme passes. -/
theorem neutralizeSchemes_id_of_noMatch (m : List Char)
    (hj : noMatchAll schemePat (.word "javascript".toList) m)
    (hd : noMatchAll schemePat (.word "data".toList) m)
    (hv : noMatchAll schemePat (.word "vbscript".toList) m) :
    neutralizeSchemes m = m := by
  unfold neutralizeSchemes replaceScheme rewriteTop
  rw [rewriteGo_id_of_noMatch schemePat _ blockedColon _ _ hj]
  rw [rewriteGo_id_of_noMatch schemePat _ blockedColon _ _ hd]
  exact rewriteGo_id_of_noMatch schemePat _ blockedColon _ _ hv

/-- C4 counterexample: `sanitize_content` is not idempotent — the final
entity-escaping pass re-escapes its own output, so `&` sanitizes to
`&amp;` while a second application yields `&amp;amp;`. -/
theorem sanitizeHTML_not_idempotent :
    sanitizeHTML "&" {} = "&amp;" ∧
    sanitizeHTML (sanitizeHTML "&" {}) {} = "&amp;amp;" ∧
    ¬ sanitizeHTML (sanitizeHTML "&" {}) {} = sanitizeHTML "&" {} :=
  ⟨rfl, rfl, by decide⟩

/-- C4 (corrected): `sanitize_content` is idempotent on inputs that fit
twice into the length cap, contain none of the eight entity-escaped
characters, and contain no case-insensitive `expression` or `@import`;
on such inputs both applications reduce to the scheme-neutralization
passes, and the second finds nothing left to rewrite.  (In general a
second application re-escapes the entities produced by the first, see the
counterexample.) -/
theorem sanitizeHTML_idempotent_on_clean (x : String) (o : SanitizeOptions)
    (hlen : 2 * x.toList.length ≤ o.maxLength)
    (hesc : x.toList.all (fun c => ! escChar c) = true)
    (hexpr : containsCI "expression".toList x.toList = false)
    (himp : containsCI "@import".toList x.toList = false) :
    sanitizeHTML (sanitizeHTML x o) o = sanitizeHTML x o := by
  have hescL : ∀ c ∈ x.toList, escChar c = false := by
    intro c hc
    have := List.all_eq_true.mp hesc c hc
    simpa using this
  have hexprL : noMatchAll litPat (.word "expression".toList) x.toList :=
    (hasM_false_iff litPat _ x.toList.length x.toList (le_refl _)).mp hexpr
  have himpL : noMatchAll litPat (.word "@import".toList) x.toList :=
    (hasM_false_iff litPat _ x.toList.length x.toList (le_refl _)).mp himp
  have h1 : sanitizeHTMLList x.toList o = neutralizeSchemes x.toList :=
    sanitizeHTMLList_clean x.toList o (by omega) hescL hexprL himpL
  have hescM := neutralizeSchemes_escFree x.toList hescL
  have hexprM : noMatchAll litPat (.word "expression".toList) (neutralizeSchemes x.toList) :=
    neutralizeSchemes_preserves_lit _ (by decide)
      (litInv_fails _ blockedColon (by decide)) (by decide) _ hexprL
  have himpM : noMatchAll litPat (.word "@import".toList) (neutralizeSchemes x.toList) :=
    neutralizeSchemes_preserves_lit _ (by decide)
      (litInv_fails _ blockedColon (by decide)) (by decide) _ himpL
  have hlenM : (neutralizeSchemes x.toList).length ≤ o.maxLength := by
    have := neutralizeSchemes_length x.toList
    omega
  have h2 : sanitizeHTMLList (neutralizeSchemes x.toList) o =
      neutralizeSchemes (neutralizeSchemes x.toList) :=
    sanitizeHTMLList_clean _ o hlenM hescM hexprM himpM
  have h3 : neutralizeSchemes (neutralizeSchemes x.toList) = neutralizeSchemes x.toList := by
    obtain ⟨hj, hd, hv⟩ := neutralizeSchemes_noMatchAll x.toList
    exact neutralizeSchemes_id_of_noMatch _ hj hd hv
  show (sanitizeHTMLList (sanitizeHTMLList x.toList o) o).asString =
    (sanitizeHTMLList x.toList o).asString
  rw [h1, h2, h3]

/-- Witness for C4's amended claim at the clean input `hello`. -/
theorem sanitizeHTML_idempotent_on_clean_witness :
    (2 * "hello".toList.length ≤ (({} : SanitizeOptions)).maxLength ∧
     "hello".toList.all (fun c => ! escChar c) = true ∧
     containsCI "expression".toList "hello".toList = false ∧
     containsCI "@import".toList "hello".toList = false) ∧
    sanitizeHTML (sanitizeHTML "hello" ({} : SanitizeOptions)) ({} : SanitizeOptions) =
      sanitizeHTML "hello" ({} : SanitizeOptions) :=
  ⟨⟨by decide, by decide, by decide, by decide⟩,
   sanitizeHTML_idempotent_on_clean "hello" {} (by decide) (by decide) (by decide) (by decide)⟩

end JsSec
